import Mathlib

/-!
Verification development for the ledger core of the Stegos blockchain
(`src/blockchain/src/blockchain.rs` and its companions).  Pure parts of the
code are translated into executable Lean definitions; the stateful ledger is
modelled by explicit state passing, with `Option` capturing the code's
fatal paths (a Rust `panic`/`expect`/`assert` becomes `none`) and `Except`
capturing recoverable errors.  Components of the repository that are not
part of the staged sources (the multi-versioned map `mvcc.rs`, the escrow,
the election evaluator, the awards engine, the block/output/transaction data
types and the curve arithmetic) are modelled from the specification's words;
each such definition carries a doc comment saying so.
-/

set_option autoImplicit false
set_option linter.unusedSectionVars false
set_option linter.unusedVariables false

namespace Stegos

/-- Modelled from the spec: hashes (`stegos_crypto::hash::Hash`, not part of
the staged sources) are opaque identifiers; we use naturals produced by
injective-enough encodings below. -/
abbrev Hash := Nat

/-- Modelled from the spec: a pbc network public key (`pbc::PublicKey`). -/
abbrev PKey := Nat

/-- Modelled from the spec: an scc account public key (`scc::PublicKey`). -/
abbrev APKey := Nat

/-- Modelled from the spec: timestamps are totally ordered instants;
we use integers. -/
abbrev Timestamp := Int

/-- Modelled from the spec: points of the scc elliptic-curve group.  The code
only ever adds, subtracts and compares them; we take the free abelian group
on two generators, `ℤ × ℤ`, so that the fee basis and the group generator
are independent. -/
abbrev Pt := Int × Int

/-- Modelled from the spec: scalars `scc::Fr`. -/
abbrev Fr := Int

/-- The neutral point `Pt::identity()`. -/
def Pt.identity : Pt := (0, 0)

/-- Modelled from the spec: the group generator `Pt::one()` (called `G` in
the balance equation), the second free generator of our model group. -/
def Pt.one : Pt := (0, 1)

/-- Modelled from the spec: `fee_a` maps a signed integer to a curve point
via a fixed generator basis — here the first free generator. -/
def fee_a (x : Int) : Pt := (x, 0)

/-- Scalar multiplication `gamma * P` on the model group. -/
def frMul (a : Fr) (p : Pt) : Pt := (a * p.1, a * p.2)

/-- Modelled from the spec: a VRF output carries its `rand` hash. -/
structure VRF where
  rand : Hash
deriving DecidableEq, Repr

/-- Modelled from the spec: a view-change proof is an opaque certificate. -/
structure ViewChangeProof where
  sig : Nat
deriving DecidableEq, Repr

/-- The log sequence number `LSN(epoch, offset)` of `blockchain.rs`,
ordered lexicographically (the Rust struct derives `Ord`). -/
structure LSN where
  ep : Nat
  off : Nat
deriving DecidableEq, Repr

def LSN.toLexPair (l : LSN) : Lex (Nat × Nat) := toLex (l.ep, l.off)

theorem LSN.toLexPair_injective : Function.Injective LSN.toLexPair := by
  intro a b h
  cases a; cases b
  have h2 := toLex.injective h
  simp only [Prod.mk.injEq] at h2
  simp only [LSN.mk.injEq]
  exact h2

instance : LinearOrder LSN := LinearOrder.lift' LSN.toLexPair LSN.toLexPair_injective

theorem LSN.le_def (a b : LSN) :
    a ≤ b ↔ a.ep < b.ep ∨ a.ep = b.ep ∧ a.off ≤ b.off :=
  Prod.Lex.le_iff (a.ep, a.off) (b.ep, b.off)

theorem LSN.lt_def (a b : LSN) :
    a < b ↔ a.ep < b.ep ∨ a.ep = b.ep ∧ a.off < b.off :=
  Prod.Lex.lt_iff (a.ep, a.off) (b.ep, b.off)

/-- The initial LSN `INITIAL_LSN = LSN(0, 0)`. -/
def INITIAL_LSN : LSN := ⟨0, 0⟩

/-- The sentinel offset `MACRO_BLOCK_OFFSET = 4294967295u32` used to store
macro blocks on disk. -/
def MACRO_BLOCK_OFFSET : Nat := 4294967295

section AssocOps

variable {K V : Type} [LinearOrder K] [DecidableEq K] [DecidableEq V]

/-- Lookup in an association list (the model of an ordered `BTreeMap`). -/
def lookupA : List (K × V) → K → Option V
  | [], _ => none
  | (a, b) :: t, k => if k = a then some b else lookupA t k

/-- Insert-or-replace keeping keys sorted, the model of `BTreeMap::insert`. -/
def setA : List (K × V) → K → V → List (K × V)
  | [], k, v => [(k, v)]
  | (a, b) :: t, k, v =>
    if k < a then (k, v) :: (a, b) :: t
    else if k = a then (k, v) :: t
    else (a, b) :: setA t k v

/-- Delete a key, the model of `BTreeMap::remove`. -/
def delA : List (K × V) → K → List (K × V)
  | [], _ => []
  | (a, b) :: t, k => if k = a then t else (a, b) :: delA t k

/-- Strictly increasing keys: the canonical-form invariant of the
`BTreeMap` model. -/
def KeysSorted (m : List (K × V)) : Prop :=
  m.Pairwise (fun a b => a.1 < b.1)

instance (m : List (K × V)) : Decidable (KeysSorted m) := by
  unfold KeysSorted; infer_instance

theorem keysSorted_cons {a : K × V} {t : List (K × V)} (h : KeysSorted (a :: t)) :
    KeysSorted t := (List.pairwise_cons.mp h).2

theorem keysSorted_head {a : K × V} {t : List (K × V)} (h : KeysSorted (a :: t)) :
    ∀ e ∈ t, a.1 < e.1 := fun e he => (List.pairwise_cons.mp h).1 e he

theorem lookupA_none_of_lt {m : List (K × V)} {k : K}
    (h : ∀ e ∈ m, k < e.1) : lookupA m k = none := by
  induction m with
  | nil => rfl
  | cons a t ih =>
    simp only [lookupA]
    have hk : k < a.1 := h a (List.mem_cons_self a t)
    rw [if_neg (ne_of_lt hk)]
    exact ih fun e he => h e (List.mem_cons_of_mem a he)

theorem setA_of_lt {m : List (K × V)} {k : K} (v : V)
    (h : ∀ e ∈ m, k < e.1) : setA m k v = (k, v) :: m := by
  cases m with
  | nil => rfl
  | cons a t =>
    simp only [setA]
    rw [if_pos (h a (List.mem_cons_self a t))]

theorem delA_of_lookup_none {m : List (K × V)} {k : K}
    (h : lookupA m k = none) : delA m k = m := by
  induction m with
  | nil => rfl
  | cons a t ih =>
    simp only [lookupA] at h
    simp only [delA]
    by_cases hk : k = a.1
    · rw [if_pos hk] at h; exact absurd h (by simp)
    · rw [if_neg hk] at h
      rw [if_neg hk, ih h]

theorem delA_setA_of_none {m : List (K × V)} {k : K} {v : V}
    (h : lookupA m k = none) : delA (setA m k v) k = m := by
  induction m with
  | nil => simp [setA, delA]
  | cons a t ih =>
    simp only [lookupA] at h
    by_cases hk : k = a.1
    · rw [if_pos hk] at h; exact absurd h (by simp)
    · rw [if_neg hk] at h
      simp only [setA]
      by_cases hlt : k < a.1
      · rw [if_pos hlt]
        simp [delA, hk]
      · rw [if_neg hlt, if_neg hk]
        simp [delA, hk, ih h]

theorem mem_keys_of_lookupA_some {m : List (K × V)} {k : K} {v : V}
    (h : lookupA m k = some v) : k ∈ m.map Prod.fst := by
  induction m with
  | nil => simp [lookupA] at h
  | cons a t ih =>
    simp only [lookupA] at h
    by_cases hk : k = a.1
    · simp [hk]
    · rw [if_neg hk] at h
      simp [ih h]

theorem setA_setA_of_some {m : List (K × V)} {k : K} {v v₀ : V}
    (hs : KeysSorted m) (h : lookupA m k = some v₀) :
    setA (setA m k v) k v₀ = m := by
  induction m with
  | nil => simp [lookupA] at h
  | cons a t ih =>
    obtain ⟨a1, a2⟩ := a
    simp only [lookupA] at h
    by_cases hk : k = a1
    · rw [if_pos hk] at h
      injection h with h
      subst hk; subst h
      simp [setA]
    · rw [if_neg hk] at h
      have hagtk : a1 < k := by
        have hmem := mem_keys_of_lookupA_some h
        obtain ⟨e, he, hke⟩ := List.mem_map.mp hmem
        have := keysSorted_head hs e he
        rw [hke] at this; exact this
      simp only [setA]
      rw [if_neg (not_lt_of_gt hagtk), if_neg hk]
      simp only [setA]
      rw [if_neg (not_lt_of_gt hagtk), if_neg hk]
      rw [ih (keysSorted_cons hs) h]

theorem setA_delA_of_some {m : List (K × V)} {k : K} {v₀ : V}
    (hs : KeysSorted m) (h : lookupA m k = some v₀) :
    setA (delA m k) k v₀ = m := by
  induction m with
  | nil => simp [lookupA] at h
  | cons a t ih =>
    obtain ⟨a1, a2⟩ := a
    simp only [lookupA] at h
    by_cases hk : k = a1
    · rw [if_pos hk] at h
      injection h with h
      subst hk; subst h
      simp only [delA, if_pos rfl]
      exact setA_of_lt a2 (fun e he => keysSorted_head hs e he)
    · rw [if_neg hk] at h
      have hagtk : a1 < k := by
        have hmem := mem_keys_of_lookupA_some h
        obtain ⟨e, he, hke⟩ := List.mem_map.mp hmem
        have := keysSorted_head hs e he
        rw [hke] at this; exact this
      simp only [delA]
      rw [if_neg hk]
      simp only [setA]
      rw [if_neg (not_lt_of_gt hagtk), if_neg hk]
      rw [ih (keysSorted_cons hs) h]

theorem keysSorted_setA {m : List (K × V)} {k : K} (v : V)
    (hs : KeysSorted m) : KeysSorted (setA m k v) := by
  induction m with
  | nil => simp [setA, KeysSorted]
  | cons a t ih =>
    simp only [setA]
    by_cases hlt : k < a.1
    · rw [if_pos hlt]
      refine List.pairwise_cons.mpr ⟨?_, hs⟩
      intro e he
      rcases List.mem_cons.mp he with h1 | h2
      · rw [h1]; exact hlt
      · exact lt_trans hlt (keysSorted_head hs e h2)
    · rw [if_neg hlt]
      by_cases hk : k = a.1
      · rw [if_pos hk]
        refine List.pairwise_cons.mpr ⟨?_, keysSorted_cons hs⟩
        intro e he
        rw [hk]
        exact keysSorted_head hs e he
      · rw [if_neg hk]
        refine List.pairwise_cons.mpr ⟨?_, ih (keysSorted_cons hs)⟩
        intro e he
        have hset : ∀ e ∈ setA t k v, e.1 = k ∨ e.1 ∈ t.map Prod.fst := by
          clear he ih hs
          intro e he
          induction t with
          | nil => simp [setA] at he; simp [he]
          | cons b u ihh =>
            simp only [setA] at he
            by_cases h1 : k < b.1
            · rw [if_pos h1] at he
              rcases List.mem_cons.mp he with h2 | h2
              · left; rw [h2]
              · right; exact List.mem_map_of_mem Prod.fst h2
            · rw [if_neg h1] at he
              by_cases h2 : k = b.1
              · rw [if_pos h2] at he
                rcases List.mem_cons.mp he with h3 | h3
                · left; rw [h3]
                · right; exact List.mem_map.mpr ⟨e, List.mem_cons_of_mem b h3, rfl⟩
              · rw [if_neg h2] at he
                rcases List.mem_cons.mp he with h3 | h3
                · right; rw [h3]; exact List.mem_map.mpr ⟨b, List.mem_cons_self b u, rfl⟩
                · rcases ihh h3 with h4 | h4
                  · left; exact h4
                  · right
                    obtain ⟨x, hx, hx2⟩ := List.mem_map.mp h4
                    exact List.mem_map.mpr ⟨x, List.mem_cons_of_mem b hx, hx2⟩
        rcases hset e he with h1 | h1
        · rw [h1]
          rcases lt_or_eq_of_le (not_lt.mp hlt) with h2 | h2
          · exact h2
          · exact absurd h2.symm hk
        · obtain ⟨x, hx, hx2⟩ := List.mem_map.mp h1
          rw [← hx2]
          exact keysSorted_head hs x hx

theorem keysSorted_delA {m : List (K × V)} (k : K)
    (hs : KeysSorted m) : KeysSorted (delA m k) := by
  induction m with
  | nil => simp [delA, KeysSorted]
  | cons a t ih =>
    simp only [delA]
    by_cases hk : k = a.1
    · rw [if_pos hk]; exact keysSorted_cons hs
    · rw [if_neg hk]
      refine List.pairwise_cons.mpr ⟨?_, ih (keysSorted_cons hs)⟩
      intro e he
      have : e ∈ t := by
        clear ih hs
        induction t with
        | nil => simp [delA] at he
        | cons b u ihh =>
          simp only [delA] at he
          by_cases h1 : k = b.1
          · rw [if_pos h1] at he
            exact List.mem_cons_of_mem b he
          · rw [if_neg h1] at he
            rcases List.mem_cons.mp he with h2 | h2
            · rw [h2]; exact List.mem_cons_self b u
            · exact List.mem_cons_of_mem b (ihh h2)
      exact keysSorted_head hs e this

end AssocOps

section MVMDef

variable {K V : Type} [LinearOrder K] [DecidableEq K] [DecidableEq V]

/-- Modelled from the spec: the generic multi-versioned map of `mvcc.rs`
(§4.B).  `map` is the live `BTreeMap` (canonically sorted association list),
`undo` is the LIFO undo log — each entry keeps the `current_lsn` before the
mutation, the key and its prior binding — and `lsn` is `current_lsn`. -/
structure MVM (K V : Type) where
  map : List (K × V)
  undo : List (LSN × K × Option V)
  lsn : LSN
deriving DecidableEq, Repr

namespace MVM

/-- A fresh map at `INITIAL_LSN`. -/
def new : MVM K V := ⟨[], [], INITIAL_LSN⟩

/-- Current binding, `MultiVersionedMap::get`. -/
def get (m : MVM K V) (k : K) : Option V := lookupA m.map k

/-- `current_lsn()`. -/
def current_lsn (m : MVM K V) : LSN := m.lsn

/-- Number of live bindings, `len()`. -/
def size (m : MVM K V) : Nat := m.map.length

/-- Modelled from the spec: `insert(lsn, k, v)` records the prior binding of
`k` in the undo log, sets `k → v` and updates
`current_lsn = max(current_lsn, lsn)`.  Returns the prior binding, as the
code inspects it for collision panics. -/
def insert (m : MVM K V) (l : LSN) (k : K) (v : V) : Option V × MVM K V :=
  (lookupA m.map k,
   ⟨setA m.map k v, (m.lsn, k, lookupA m.map k) :: m.undo, max m.lsn l⟩)

/-- Modelled from the spec: `remove(lsn, k)` undo-records the prior binding
and removes `k`; `current_lsn` is updated like `insert`. -/
def remove (m : MVM K V) (l : LSN) (k : K) : Option V × MVM K V :=
  (lookupA m.map k,
   ⟨delA m.map k, (m.lsn, k, lookupA m.map k) :: m.undo, max m.lsn l⟩)

/-- Modelled from the spec: `checkpoint()` discards the undo log. -/
def checkpoint (m : MVM K V) : MVM K V := ⟨m.map, [], m.lsn⟩

/-- Re-establish a recorded prior binding. -/
def restore (mp : List (K × V)) (k : K) : Option V → List (K × V)
  | some v => setA mp k v
  | none => delA mp k

/-- Modelled from the spec: replay undo entries in reverse until
`current_lsn ≤ target`. -/
def rollbackAux (target : LSN) :
    List (LSN × K × Option V) → List (K × V) → LSN → MVM K V
  | [], mp, cur => ⟨mp, [], cur⟩
  | (pl, k, pr) :: rest, mp, cur =>
    if cur ≤ target then ⟨mp, (pl, k, pr) :: rest, cur⟩
    else rollbackAux target rest (restore mp k pr) pl

/-- Modelled from the spec: `rollback_to_lsn(target)`. -/
def rollback_to_lsn (m : MVM K V) (target : LSN) : MVM K V :=
  rollbackAux target m.undo m.map m.lsn

/-- Map canonical-form invariant. -/
def Sorted (m : MVM K V) : Prop := KeysSorted m.map

instance (m : MVM K V) : Decidable m.Sorted := by
  unfold Sorted; infer_instance

theorem sorted_insert (m : MVM K V) (l : LSN) (k : K) (v : V) (hs : m.Sorted) :
    (m.insert l k v).2.Sorted := keysSorted_setA v hs

theorem sorted_remove (m : MVM K V) (l : LSN) (k : K) (hs : m.Sorted) :
    (m.remove l k).2.Sorted := keysSorted_delA k hs

/-- Rolling back a map that is already at or before the target is the
identity. -/
theorem rollback_of_le (m : MVM K V) (t : LSN) (h : m.lsn ≤ t) :
    m.rollback_to_lsn t = m := by
  cases m with
  | mk mp undo lsn =>
    cases undo with
    | nil => rfl
    | cons e rest =>
      obtain ⟨pl, k, pr⟩ := e
      simp only [rollback_to_lsn, rollbackAux]
      rw [if_pos h]

/-- One mutation at an LSN past the rollback target is unwound exactly:
rolling back after an `insert` is rolling back the original map. -/
theorem rollback_insert (m : MVM K V) (l t : LSN) (k : K) (v : V)
    (hs : m.Sorted) (hl : ¬ l ≤ t) :
    (m.insert l k v).2.rollback_to_lsn t = m.rollback_to_lsn t := by
  have hmax : ¬ max m.lsn l ≤ t := by
    intro h
    exact hl (le_trans (le_max_right m.lsn l) h)
  have hres : restore (setA m.map k v) k (lookupA m.map k) = m.map := by
    cases hp : lookupA m.map k with
    | none => simp only [restore]; rw [delA_setA_of_none hp]
    | some v₀ => simp only [restore]; rw [setA_setA_of_some hs hp]
  simp only [insert, rollback_to_lsn, rollbackAux]
  rw [if_neg hmax, hres]

/-- Rolling back after a `remove` is rolling back the original map. -/
theorem rollback_remove (m : MVM K V) (l t : LSN) (k : K)
    (hs : m.Sorted) (hl : ¬ l ≤ t) :
    (m.remove l k).2.rollback_to_lsn t = m.rollback_to_lsn t := by
  have hmax : ¬ max m.lsn l ≤ t := by
    intro h
    exact hl (le_trans (le_max_right m.lsn l) h)
  have hres : restore (delA m.map k) k (lookupA m.map k) = m.map := by
    cases hp : lookupA m.map k with
    | none =>
      simp only [restore]
      rw [delA_of_lookup_none hp, delA_of_lookup_none hp]
    | some v₀ => simp only [restore]; rw [setA_delA_of_some hs hp]
  simp only [remove, rollback_to_lsn, rollbackAux]
  rw [if_neg hmax, hres]

end MVM

end MVMDef

/-! ### Data model: outputs, transactions, blocks (modelled from the spec §3;
`block.rs`, `output.rs` and `transaction.rs` are not part of the staged
sources). -/

/-- Deterministic mixing function used by the modelled `Hash::digest`. -/
def hmix (a b : Nat) : Nat := 1000003 * a + b

/-- Encode an integer as a natural for hashing. -/
def encInt (i : Int) : Nat := 2 * i.natAbs + (if i < 0 then 1 else 0)

/-- Encode a list for hashing. -/
def encList {α : Type} (f : α → Nat) (l : List α) : Nat :=
  l.foldr (fun x acc => hmix (f x) acc + 1) 0

/-- Encode a model curve point for hashing. -/
def encPt (p : Pt) : Nat := hmix (encInt p.1) (encInt p.2)

/-- Modelled from the spec: the three UTXO kinds.  A `PaymentOutput` hides
its amount behind a Pedersen commitment (carried here as the point itself);
a `PublicPaymentOutput` and a `StakeOutput` carry cleartext amounts, whose
commitment is `fee_a(amount)`.  `serno` stands for the serial/payload data
that makes distinct outputs hash differently. -/
inductive Output
  | payment (pc : Pt) (recipient : APKey) (serno : Nat)
  | publicPayment (recipient : APKey) (amount : Int) (serno : Nat)
  | stake (validator : PKey) (recipient : APKey) (amount : Int) (serno : Nat)
deriving DecidableEq, Repr

/-- Modelled from the spec: `Output::pedersen_commitment()`. -/
def Output.pedersen_commitment : Output → Pt
  | .payment pc _ _ => pc
  | .publicPayment _ amount _ => fee_a amount
  | .stake _ _ amount _ => fee_a amount

/-- Modelled from the spec: `Hash::digest` on an output. -/
def Output.digest : Output → Hash
  | .payment pc recipient serno => hmix 11 (hmix (encPt pc) (hmix recipient serno))
  | .publicPayment recipient amount serno =>
    hmix 12 (hmix recipient (hmix (encInt amount) serno))
  | .stake validator recipient amount serno =>
    hmix 13 (hmix validator (hmix recipient (hmix (encInt amount) serno)))

/-- Modelled from the spec: `CoinbaseTransaction`. -/
structure CoinbaseTx where
  block_reward : Int
  block_fee : Int
  gamma : Fr
  txouts : List Output
deriving DecidableEq, Repr

/-- Modelled from the spec: `PaymentTransaction`. -/
structure PaymentTx where
  txins : List Hash
  txouts : List Output
  gamma : Fr
  fee : Int
deriving DecidableEq, Repr

/-- Modelled from the spec: `RestakeTransaction`. -/
structure RestakeTx where
  txins : List Hash
  txouts : List Output
deriving DecidableEq, Repr

/-- Modelled from the spec: `SlashingTransaction` (`cheater()` returns the
slashed validator's network key). -/
structure SlashingTx where
  cheater_key : PKey
  txins : List Hash
  txouts : List Output
deriving DecidableEq, Repr

/-- Modelled from the spec: `ServiceAwardTransaction`. -/
structure ServiceAwardTx where
  winner_reward : List Output
deriving DecidableEq, Repr

/-- Modelled from the spec: the `Transaction` union. -/
inductive Tx
  | coinbase (t : CoinbaseTx)
  | payment (t : PaymentTx)
  | restake (t : RestakeTx)
  | slashing (t : SlashingTx)
  | serviceAward (t : ServiceAwardTx)
deriving DecidableEq, Repr

/-- Modelled from the spec: `Transaction::txins()`. -/
def Tx.txins : Tx → List Hash
  | .coinbase _ => []
  | .payment t => t.txins
  | .restake t => t.txins
  | .slashing t => t.txins
  | .serviceAward _ => []

/-- Modelled from the spec: `Transaction::txouts()`. -/
def Tx.txouts : Tx → List Output
  | .coinbase t => t.txouts
  | .payment t => t.txouts
  | .restake t => t.txouts
  | .slashing t => t.txouts
  | .serviceAward t => t.winner_reward

/-- Modelled from the spec: `Hash::digest` on a transaction. -/
def Tx.digest : Tx → Hash
  | .coinbase t =>
    hmix 21 (hmix (encInt t.block_reward)
      (hmix (encInt t.block_fee) (hmix (encInt t.gamma) (encList Output.digest t.txouts))))
  | .payment t =>
    hmix 22 (hmix (encList id t.txins)
      (hmix (encList Output.digest t.txouts) (hmix (encInt t.gamma) (encInt t.fee))))
  | .restake t =>
    hmix 23 (hmix (encList id t.txins) (encList Output.digest t.txouts))
  | .slashing t =>
    hmix 24 (hmix t.cheater_key (hmix (encList id t.txins) (encList Output.digest t.txouts)))
  | .serviceAward t => hmix 25 (encList Output.digest t.winner_reward)

/-- The protocol version constant `VERSION` of `block.rs` (modelled from the
spec: both block headers carry `version`). -/
def VERSION : Nat := 1

/-- Modelled from the spec: a micro-block header. -/
structure MicroBlockHeader where
  version : Nat
  epoch : Nat
  offset : Nat
  previous : Hash
  timestamp : Timestamp
  view_change : Nat
  random : VRF
  pkey : PKey
deriving DecidableEq, Repr

/-- Modelled from the spec: a micro block is a header and transactions. -/
structure MicroBlock where
  header : MicroBlockHeader
  transactions : List Tx
deriving DecidableEq, Repr

/-- Modelled from the spec: a macro-block header, with the flat inputs and
outputs counters and an activity bitmap over the epoch-start validators. -/
structure MacroBlockHeader where
  version : Nat
  epoch : Nat
  view_change : Nat
  previous : Hash
  timestamp : Timestamp
  random : VRF
  difficulty : Nat
  pkey : PKey
  gamma : Fr
  block_reward : Int
  activity_map : List Bool
  inputs_len : Nat
  outputs_len : Nat
deriving DecidableEq, Repr

/-- Modelled from the spec: a macro block with flat spent input hashes and
created outputs. -/
structure MacroBlock where
  header : MacroBlockHeader
  inputs : List Hash
  outputs : List Output
deriving DecidableEq, Repr

/-- Modelled from the spec: `Hash::digest` on a micro block. -/
def MicroBlock.digest (b : MicroBlock) : Hash :=
  hmix 31 (hmix b.header.version (hmix b.header.epoch (hmix b.header.offset
    (hmix b.header.previous (hmix (encInt b.header.timestamp)
      (hmix b.header.view_change (hmix b.header.random.rand
        (hmix b.header.pkey (encList Tx.digest b.transactions)))))))))

/-- Modelled from the spec: `Hash::digest` on a macro block. -/
def MacroBlock.digest (b : MacroBlock) : Hash :=
  hmix 32 (hmix b.header.version (hmix b.header.epoch (hmix b.header.previous
    (hmix (encInt b.header.timestamp) (hmix b.header.random.rand
      (hmix b.header.difficulty (hmix (encInt b.header.gamma)
        (hmix (encInt b.header.block_reward)
          (hmix (encList id b.inputs) (encList Output.digest b.outputs))))))))))

/-- Modelled from the spec: the `Block` union. -/
inductive Block
  | microB (b : MicroBlock)
  | macroB (b : MacroBlock)
deriving DecidableEq, Repr

/-- `Hash::digest` on a block dispatches on the kind. -/
def Block.digest : Block → Hash
  | .microB b => b.digest
  | .macroB b => b.digest

/-- The locator `OutputKey` of `blockchain.rs`. -/
inductive OutputKey
  | macroKey (epoch : Nat) (output_id : Nat)
  | microKey (epoch : Nat) (offset : Nat) (tx_id : Nat) (txout_id : Nat)
deriving DecidableEq, Repr

/-- The running monetary `Balance` of `blockchain.rs`. -/
structure Balance where
  created : Pt
  burned : Pt
  gamma : Fr
  block_reward : Int
deriving DecidableEq, Repr

/-- `ChainConfig` (`config.rs`): the ledger configuration. -/
structure ChainConfig where
  max_slot_count : Int
  min_stake_amount : Int
  stake_epochs : Nat
  micro_blocks_in_epoch : Nat
  awards_difficulty : Nat
  block_reward : Int
  service_award_per_epoch : Int
deriving DecidableEq, Repr

/-- Modelled from the spec: `ValidatorAwardState` is `Active` or
`FailedAt(epoch, offset)`. -/
inductive ValidatorAwardState
  | active
  | failedAt (epoch : Nat) (offset : Nat)
deriving DecidableEq, Repr

/-- Modelled from the spec: `ElectionResult` — ordered validator/stake
list, facilitator, VRF randomness and the view-change counter. -/
structure ElectionResult where
  validators : List (PKey × Int)
  facilitator : PKey
  random : VRF
  view_change : Nat
deriving DecidableEq, Repr

/-- Modelled from the spec: `select_leader(view_change)` draws a slot
deterministically from the schedule; the slot schedule itself is abstracted
to a cyclic draw over the validator list. -/
def ElectionResult.select_leader (e : ElectionResult) (view_change : Nat) : PKey :=
  (e.validators.map Prod.fst).getD (view_change % max 1 e.validators.length) e.facilitator

/-- Modelled from the spec: `is_validator(peer)`. -/
def ElectionResult.is_validator (e : ElectionResult) (peer : PKey) : Bool :=
  e.validators.any (fun kv => kv.1 == peer)

/-- Modelled from the spec: `select_validators_slots(stakers, random,
max_slot_count)` deterministically produces the new `ElectionResult` with
`view_change = 0`; the weighted slot draw is abstracted to a deterministic
choice of facilitator from the randomness. -/
def select_validators_slots (stakers : List (PKey × Int)) (random : VRF)
    (max_slot_count : Int) : ElectionResult :=
  { validators := stakers,
    facilitator := (stakers.map Prod.fst).getD (random.rand % max 1 stakers.length) 0,
    random := random,
    view_change := 0 }

/-- Modelled from the spec: one escrow entry
`(account_key, amount, active_until_epoch)`. -/
structure EscrowValue where
  account : APKey
  amount : Int
  active_until_epoch : Nat
deriving DecidableEq, Repr

/-- Modelled from the spec: stakes by `(validator_network_key, utxo_hash)`
built atop an MVM; the pair key is encoded with the `Nat.pair` injection. -/
structure Escrow where
  mvm : MVM Nat EscrowValue
deriving DecidableEq, Repr

namespace Escrow

/-- Key encoding for the `(validator, utxo_hash)` pair: injective for
network keys below `2^32`, which the model's keys always are. -/
def key (validator : PKey) (utxo : Hash) : Nat := utxo * 4294967296 + validator

/-- Recover the network key from an escrow key. -/
def keyValidator (k : Nat) : PKey := k % 4294967296

def new : Escrow := ⟨MVM.new⟩

def current_lsn (e : Escrow) : LSN := e.mvm.lsn

/-- Modelled from the spec: `stake` inserts an entry with
`active_until = epoch_now + stake_epochs`. -/
def stake (e : Escrow) (lsn : LSN) (validator : PKey) (recipient : APKey)
    (utxo : Hash) (epoch_now stake_epochs : Nat) (amount : Int) : Escrow :=
  ⟨(e.mvm.insert lsn (key validator utxo) ⟨recipient, amount, epoch_now + stake_epochs⟩).2⟩

/-- Modelled from the spec: `unstake` removes the entry.  Per §7 the
`StakeIsLocked` error arises only while validating new blocks, never during
apply of pre-validated ones, so the lock is not re-checked here. -/
def unstake (e : Escrow) (lsn : LSN) (validator : PKey) (utxo : Hash)
    (epoch_now : Nat) : Escrow :=
  ⟨(e.mvm.remove lsn (key validator utxo)).2⟩

def checkpoint (e : Escrow) : Escrow := ⟨e.mvm.checkpoint⟩

def rollback_to_lsn (e : Escrow) (target : LSN) : Escrow :=
  ⟨e.mvm.rollback_to_lsn target⟩

/-- Modelled from the spec: `account_by_network_key(validator)`. -/
def account_by_network_key (e : Escrow) (validator : PKey) : Option APKey :=
  (e.mvm.map.find? (fun kv => keyValidator kv.1 == validator)).map (fun kv => kv.2.account)

/-- Aggregate mature stakes per validator into a key-sorted list. -/
def stakersAux (epoch_now : Nat) :
    List (Nat × EscrowValue) → List (PKey × Int) → List (PKey × Int)
  | [], acc => acc
  | (k, v) :: t, acc =>
    if v.active_until_epoch ≤ epoch_now then
      let pk := keyValidator k
      stakersAux epoch_now t (setA acc pk ((lookupA acc pk).getD 0 + v.amount))
    else stakersAux epoch_now t acc

/-- Modelled from the spec: `get_stakers_majority(epoch_now, min_stake)` —
validators whose currently mature aggregate stake meets `min_stake`,
deterministically ordered by network key. -/
def get_stakers_majority (e : Escrow) (epoch_now : Nat) (min_stake : Int) :
    List (PKey × Int) :=
  (stakersAux epoch_now e.mvm.map []).filter (fun p => min_stake ≤ p.2)

end Escrow

/-- Modelled from the spec: the awards engine state — the accumulated pool
budget, the bit-difficulty of the winner draw, and the per-account activity
recorded at the last epoch end. -/
structure Awards where
  budget : Int
  difficulty : Nat
  validators_activity : List (APKey × ValidatorAwardState)
deriving DecidableEq, Repr

namespace Awards

def new (difficulty : Nat) : Awards := ⟨0, difficulty, []⟩

/-- Modelled from the spec: `finalize_epoch(pool, activities)` adds the
per-epoch pool to the budget and records the activities. -/
def finalize_epoch (a : Awards) (pool : Int)
    (act : List (APKey × ValidatorAwardState)) : Awards :=
  { a with budget := a.budget + pool, validators_activity := act }

/-- Modelled from the spec: `check_winners(random)` selects at most one
winner deterministically from the randomness: a difficulty draw decides
whether a winner is paid at all, and the randomness picks one active
account; the winner receives the whole budget. -/
def check_winners (a : Awards) (rand : Hash) : Option (APKey × Int) :=
  match a.validators_activity.filter (fun p => p.2 == ValidatorAwardState.active) with
  | [] => none
  | x :: xs =>
    if rand % 2 ^ a.difficulty = 0 then
      some (((x :: xs).getD (rand % (xs.length + 1)) x).1, a.budget)
    else none

end Awards

/-- Modelled from the spec (§7): the error surface of `Blockchain::new`.
`blockchain.rs` constructs `IncompatibleGenesis` with the caller-supplied
genesis hash and the recovered first block's hash. -/
inductive BlockchainError
  | IncompatibleGenesis (genesis_hash : Hash) (database_hash : Hash)
  | StorageError (code : Nat)
deriving DecidableEq, Repr

/-- The in-memory and persistent state of `struct Blockchain`
(`blockchain.rs`).  The rocksdb block log is modelled as a key-sorted
association list from LSN to block — iteration order is byte-lexicographic
key order, which `block_key_orders` below proves equal to LSN order. -/
structure ChainState where
  cfg : ChainConfig
  db : List (LSN × Block)
  block_by_hash : MVM Hash LSN
  output_by_hash : MVM Hash OutputKey
  balance : MVM Unit Balance
  escrow : Escrow
  difficulty : Nat
  epoch : Nat
  offset : Nat
  election_result : MVM Unit ElectionResult
  view_change_proof : Option ViewChangeProof
  last_macro_block_timestamp : Timestamp
  last_macro_block_hash : Hash
  last_macro_block_random : Hash
  last_block_timestamp : Timestamp
  last_block_hash : Hash
  awards : Awards
  epoch_activity : MVM PKey ValidatorAwardState
deriving DecidableEq, Repr

/-! ### Ledger operations (`blockchain.rs`). -/

/-- Big-endian byte string of width `w` for `n` (most significant first),
as `byteorder::BigEndian` writes it. -/
def beBytes : Nat → Nat → List Nat
  | 0, _ => []
  | w + 1, n => (n / 256 ^ w) :: beBytes w (n % 256 ^ w)

/-- `Blockchain::block_key(lsn)`: the 12-byte key — 8-byte big-endian epoch
followed by 4-byte big-endian offset. -/
def block_key (lsn : LSN) : List Nat := beBytes 8 lsn.ep ++ beBytes 4 lsn.off

/-- Byte-lexicographic strict order on byte strings, the iteration order of
the rocksdb log. -/
def bytesLt : List Nat → List Nat → Prop
  | [], [] => False
  | [], _ :: _ => True
  | _ :: _, [] => False
  | a :: as, b :: bs => a < b ∨ (a = b ∧ bytesLt as bs)

instance instDecidableBytesLt : ∀ x y : List Nat, Decidable (bytesLt x y)
  | [], [] => isFalse (fun h => h)
  | [], _ :: _ => isTrue trivial
  | _ :: _, [] => isFalse (fun h => h)
  | a :: as, b :: bs =>
    have : Decidable (bytesLt as bs) := instDecidableBytesLt as bs
    inferInstanceAs (Decidable (_ ∨ _))

namespace ChainState

/-- `block(lsn)`: read a block from the log; absence is the
"Block must exists" fatal path. -/
def block_m (s : ChainState) (lsn : LSN) : Option Block := lookupA s.db lsn

/-- `micro_block(epoch, offset)`; `unwrap_micro` on a macro block is fatal. -/
def micro_block_m (s : ChainState) (epoch offset : Nat) : Option MicroBlock :=
  match s.block_m ⟨epoch, offset⟩ with
  | some (.microB b) => some b
  | _ => none

/-- `macro_block(epoch)`; `unwrap_macro` on a micro block is fatal. -/
def macro_block_m (s : ChainState) (epoch : Nat) : Option MacroBlock :=
  match s.block_m ⟨epoch, MACRO_BLOCK_OFFSET⟩ with
  | some (.macroB b) => some b
  | _ => none

/-- `election_result()`: the current election result; the code unwraps. -/
def election_result_m (s : ChainState) : Option ElectionResult :=
  s.election_result.get ()

/-- `validators()`: the current validators with stakes. -/
def validators_m (s : ChainState) : Option (List (PKey × Int)) :=
  (s.election_result_m).map (fun e => e.validators)

/-- `view_change()`: the current view-change counter. -/
def view_change_m (s : ChainState) : Option Nat :=
  (s.election_result_m).map (fun e => e.view_change)

/-- `contains_output(hash)`: membership in the UTXO index. -/
def contains_output (s : ChainState) (output_hash : Hash) : Bool :=
  (s.output_by_hash.get output_hash).isSome

/-- `output_by_hash(hash)` the query: resolve the `OutputKey`, load the
containing block from the log and index the output.  The outer `Option` is
the fatal layer (corrupted index, missing block); the inner one is the
`Ok(None)` result. -/
def output_by_hash_m (s : ChainState) (output_hash : Hash) : Option (Option Output) :=
  match s.output_by_hash.get output_hash with
  | some (.macroKey epoch output_id) =>
    match s.macro_block_m epoch with
    | none => none
    | some b => some (b.outputs.get? output_id)
  | some (.microKey epoch offset tx_id txout_id) =>
    match s.micro_block_m epoch offset with
    | none => none
    | some b =>
      match b.transactions.get? tx_id with
      | none => none
      | some tx =>
        match tx.txouts.get? txout_id with
        | none => none
        | some o => some (some o)
  | none => some none

/-- Resolve a list of input hashes through `output_by_hash`, as the macro
path and the transaction loop do; a missing output is fatal
(`expect("Missing output")`). -/
def resolveInputs (s : ChainState) : List Hash → Option (List Output)
  | [] => some []
  | h :: t =>
    match s.output_by_hash_m h with
    | some (some o) => (resolveInputs s t).map (fun l => o :: l)
    | _ => none

/-- `is_epoch_full()`. -/
def is_epoch_full (s : ChainState) : Bool :=
  s.cfg.micro_blocks_in_epoch ≤ s.offset

/-- `reset_view_change()`: write the current election result with
`view_change = 0` at the current `(epoch, offset)` LSN and drop the proof. -/
def reset_view_change (s : ChainState) : Option ChainState :=
  match s.election_result_m with
  | none => none
  | some er =>
    some { s with
      election_result :=
        (s.election_result.insert ⟨s.epoch, s.offset⟩ () { er with view_change := 0 }).2,
      view_change_proof := none }

/-- `election_result_by_offset(offset)`: roll back a transient clone of the
election MVM to the LSN just before `offset`. -/
def election_result_by_offset (s : ChainState) (offset : Nat) :
    Option ElectionResult :=
  if s.epoch = 0 then none
  else if s.offset < offset then none
  else
    let lsn : LSN :=
      if offset = 0 then ⟨s.epoch - 1, MACRO_BLOCK_OFFSET⟩ else ⟨s.epoch, offset - 1⟩
    let election := s.election_result.rollback_to_lsn lsn
    if election.current_lsn ≤ lsn then election.get () else none

/-- `validators_at_epoch_start()`. -/
def validators_at_epoch_start (s : ChainState) : Option (List (PKey × Int)) :=
  (s.election_result_by_offset 0).map (fun e => e.validators)

/-- Inner loop of `epoch_activity_from_macro_block`: enumerate the
epoch-start validators, translating activity bits into award states keyed
by account; a `FailedAt` entry is never overridden by `Active`. -/
def activityFold (s : ChainState) (amap : List Bool) :
    List (Nat × (PKey × Int)) → List (APKey × ValidatorAwardState) →
    Option (List (APKey × ValidatorAwardState))
  | [], acc => some acc
  | (validator_id, (validator, _)) :: rest, acc =>
    match s.escrow.account_by_network_key validator with
    | none => none
    | some validator_account =>
      let st := if amap.getD validator_id false then ValidatorAwardState.active
                else ValidatorAwardState.failedAt s.epoch s.offset
      match lookupA acc validator_account with
      | some (.failedAt _ _) => activityFold s amap rest acc
      | _ => activityFold s amap rest (setA acc validator_account st)

/-- `epoch_activity_from_macro_block(activity_map)`: rebuild the epoch
activity from the macro block's bitmap and the epoch-start validator set;
an oversized bitmap is the `TooBigActivitymap` error. -/
def epoch_activity_from_macro_block (s : ChainState) (activity_map : List Bool) :
    Option (List (APKey × ValidatorAwardState)) :=
  match s.validators_at_epoch_start with
  | none => none
  | some validators =>
    if validators.length < activity_map.length then none
    else activityFold s activity_map validators.enum []

end ChainState

/-- Inputs phase of `register_inputs_and_outputs`: remove each input hash
from the UTXO index (absence is fatal), accumulate the burned commitments
and unstake spent stake outputs. -/
def processInputs (lsn : LSN) (epoch : Nat) :
    List (Hash × Output) → MVM Hash OutputKey → Escrow → Pt →
    Option (MVM Hash OutputKey × Escrow × Pt)
  | [], om, es, burned => some (om, es, burned)
  | (input_hash, input) :: rest, om, es, burned =>
    let r := om.remove lsn input_hash
    match r.1 with
    | none => none
    | some _ =>
      let burned' := burned + input.pedersen_commitment
      match input with
      | .stake validator _ _ _ =>
        let es' := es.unstake lsn validator input_hash epoch
        if es'.current_lsn = lsn then processInputs lsn epoch rest r.2 es' burned'
        else none
      | _ => processInputs lsn epoch rest r.2 es burned'

/-- Outputs phase of `register_inputs_and_outputs`: insert each output into
the UTXO index (a collision is fatal), accumulate the created commitments
and stake new stake outputs. -/
def processOutputs (lsn : LSN) (epoch stake_epochs : Nat) :
    List (OutputKey × Output) → MVM Hash OutputKey → Escrow → Pt →
    Option (MVM Hash OutputKey × Escrow × Pt)
  | [], om, es, created => some (om, es, created)
  | (output_key, output) :: rest, om, es, created =>
    let output_hash := output.digest
    let r := om.insert lsn output_hash output_key
    match r.1 with
    | some _ => none
    | none =>
      if r.2.current_lsn = lsn then
        let created' := created + output.pedersen_commitment
        match output with
        | .stake validator recipient amount _ =>
          let es' := es.stake lsn validator recipient output_hash epoch stake_epochs amount
          if es'.current_lsn = lsn then
            processOutputs lsn epoch stake_epochs rest r.2 es' created'
          else none
        | _ => processOutputs lsn epoch stake_epochs rest r.2 es created'
      else none

namespace ChainState

/-- `register_inputs_and_outputs` — the shared apply step: index the block
hash, prune inputs, register outputs, and enforce the per-block and global
monetary balance equations before inserting the new `Balance` at the
block's LSN.  All fatal paths return `none`. -/
def register_inputs_and_outputs (s : ChainState) (lsn : LSN) (block_hash : Hash)
    (input_hashes : List Hash) (inputs : List Output)
    (output_keys : List OutputKey) (outputs : List Output)
    (gamma : Fr) (block_reward : Int) : Option ChainState :=
  let r := s.block_by_hash.insert lsn block_hash lsn
  match r.1 with
  | some _ => none
  | none =>
    if r.2.current_lsn = lsn then
      match processInputs lsn s.epoch (input_hashes.zip inputs)
          s.output_by_hash s.escrow Pt.identity with
      | none => none
      | some (om, es, burned) =>
        match processOutputs lsn s.epoch s.cfg.stake_epochs
            (output_keys.zip outputs) om es Pt.identity with
        | none => none
        | some (om', es', created) =>
          if fee_a block_reward + burned - created ≠ frMul gamma Pt.one then none
          else
            match s.balance.get () with
            | none => none
            | some orig =>
              let bal : Balance :=
                ⟨orig.created + created, orig.burned + burned,
                 orig.gamma + gamma, orig.block_reward + block_reward⟩
              if fee_a bal.block_reward + bal.burned - bal.created
                  ≠ frMul bal.gamma Pt.one then none
              else
                let r2 := s.balance.insert lsn () bal
                if r2.2.current_lsn = lsn then
                  some { s with block_by_hash := r.2, output_by_hash := om',
                                escrow := es', balance := r2.2 }
                else none
    else none

end ChainState

/-- Accumulator of the transaction loop of `register_micro_block`. -/
structure TxAcc where
  input_hashes : List Hash
  inputs : List Output
  output_keys : List OutputKey
  outputs : List Output
  gamma : Fr
  block_reward : Int
  txs : List (Hash × Tx)
deriving DecidableEq, Repr

/-- Locators for the outputs of transaction `tx_id` of a micro block. -/
def microOutputKeys (epoch offset tx_id : Nat) (outs : List Output) :
    List OutputKey :=
  (List.range outs.length).map (fun txout_id => OutputKey.microKey epoch offset tx_id txout_id)

/-- The transaction loop of `register_micro_block`: resolve inputs, collect
outputs and aggregates, and for a `SlashingTransaction` remove the cheater
from the current election result's validators at this LSN.  A
`ServiceAwardTransaction` in a micro block is `unreachable!`. -/
def txLoop (lsn : LSN) (epoch offset : Nat) :
    List Tx → Nat → ChainState → TxAcc → Option (ChainState × TxAcc)
  | [], _, s, acc => some (s, acc)
  | tx :: rest, tx_id, s, acc =>
    let tx_hash := tx.digest
    match s.resolveInputs tx.txins with
    | none => none
    | some ins =>
      let keys := microOutputKeys epoch offset tx_id tx.txouts
      let step : Option (ChainState × Fr × Int) :=
        match tx with
        | .coinbase t => some (s, t.gamma, t.block_reward)
        | .payment t => some (s, t.gamma, 0)
        | .restake _ => some (s, 0, 0)
        | .slashing t =>
          match s.election_result_m with
          | none => none
          | some er =>
            let new_validators := er.validators.filter (fun kv => kv.1 ≠ t.cheater_key)
            let er' := { er with validators := new_validators }
            some ({ s with election_result := (s.election_result.insert lsn () er').2 }, 0, 0)
        | .serviceAward _ => none
      match step with
      | none => none
      | some (s', g, br) =>
        if (lookupA acc.txs tx_hash).isSome then none
        else
          txLoop lsn epoch offset rest (tx_id + 1) s'
            { input_hashes := acc.input_hashes ++ tx.txins,
              inputs := acc.inputs ++ ins,
              output_keys := acc.output_keys ++ keys,
              outputs := acc.outputs ++ tx.txouts,
              gamma := acc.gamma + g,
              block_reward := acc.block_reward + br,
              txs := acc.txs ++ [(tx_hash, tx)] }

/-- The skipped-view-change loop of the awards update: mark the leader of
every skipped view change `FailedAt(epoch, offset)`. -/
def markSkipped (lsn : LSN) (ep off : Nat) :
    List Nat → ChainState → Option ChainState
  | [], s => some s
  | v :: rest, s =>
    match s.election_result_m with
    | none => none
    | some er =>
      let leader := er.select_leader v
      markSkipped lsn ep off rest
        { s with epoch_activity :=
          (s.epoch_activity.insert lsn leader (ValidatorAwardState.failedAt ep off)).2 }

namespace ChainState

/-- `register_micro_block(lsn, block)`: the full micro apply — assertions,
transaction loop, awards activity update, the shared register step, and the
metadata/election update.  Returns the spent outputs, created outputs and
the transaction map. -/
def register_micro_block (s : ChainState) (lsn : LSN) (b : MicroBlock) :
    Option (List Output × List Output × List (Hash × Tx) × ChainState) :=
  if b.header.version ≠ VERSION then none
  else if b.header.epoch ≠ s.epoch then none
  else if b.header.offset ≠ s.offset then none
  else if b.header.previous ≠ s.last_block_hash then none
  else if ¬ s.last_block_timestamp < b.header.timestamp then none
  else if s.is_epoch_full then none
  else
    let epoch := s.epoch
    let offset := s.offset
    let block_hash := b.digest
    match txLoop lsn epoch offset b.transactions 0 s
        ⟨[], [], [], [], 0, 0, []⟩ with
    | none => none
    | some (s1, acc) =>
      match markSkipped lsn s1.epoch s1.offset (List.range b.header.view_change) s1 with
      | none => none
      | some s2 =>
        match s2.election_result_m with
        | none => none
        | some er =>
          let leader := er.select_leader b.header.view_change
          let s3 :=
            if s2.epoch_activity.get leader = none then
              { s2 with epoch_activity :=
                (s2.epoch_activity.insert lsn leader ValidatorAwardState.active).2 }
            else s2
          match s3.register_inputs_and_outputs lsn block_hash acc.input_hashes
              acc.inputs acc.output_keys acc.outputs acc.gamma acc.block_reward with
          | none => none
          | some s4 =>
            let s5 := { s4 with
              last_block_timestamp := b.header.timestamp,
              last_block_hash := block_hash,
              offset := s4.offset + 1 }
            match s5.election_result_m with
            | none => none
            | some er2 =>
              let er3 := { er2 with view_change := 0, random := b.header.random }
              some (acc.inputs, acc.outputs, acc.txs,
                { s5 with election_result := (s5.election_result.insert lsn () er3).2 })

/-- `push_micro_block(block, _timestamp)`: assert position, write the block
to the log, and register it. -/
def push_micro_block (s : ChainState) (b : MicroBlock) :
    Option (List Output × List Output × List (Hash × Tx) × ChainState) :=
  if b.header.epoch ≠ s.epoch then none
  else if b.header.offset ≠ s.offset then none
  else
    let lsn : LSN := ⟨s.epoch, s.offset⟩
    let s' := { s with db := setA s.db lsn (Block.microB b) }
    s'.register_micro_block lsn b

/-- `register_macro_block(lsn, block, inputs)`: the full macro apply —
assertions, the awards/reward check for non-genesis epochs, the shared
register step, metadata advance, the new election result, and the
checkpoint of the four reversible maps. -/
def register_macro_block (s : ChainState) (lsn : LSN) (b : MacroBlock)
    (inputs : List Output) : Option (ChainState × List Output × List Output) :=
  if b.header.version ≠ VERSION then none
  else if b.header.epoch ≠ s.epoch then none
  else if s.offset ≠ 0 then none
  else if b.header.previous ≠ s.last_macro_block_hash then none
  else if ¬ s.last_macro_block_timestamp < b.header.timestamp then none
  else if ¬ s.last_block_timestamp < b.header.timestamp then none
  else if b.header.inputs_len ≠ b.inputs.length then none
  else if b.header.outputs_len ≠ b.outputs.length then none
  else
    let epoch := b.header.epoch
    let block_hash := b.digest
    let input_hashes := b.inputs
    let outputs := b.outputs
    let output_keys := (List.range outputs.length).map
      (fun output_id => OutputKey.macroKey epoch output_id)
    let awardsStep : Option Awards :=
      if epoch = 0 then some s.awards
      else
        match s.epoch_activity_from_macro_block b.header.activity_map with
        | none => none
        | some validators_activity =>
          let aw := s.awards.finalize_epoch s.cfg.service_award_per_epoch
            validators_activity
          let winner := aw.check_winners b.header.random.rand
          let full_reward := s.cfg.block_reward * ((s.cfg.micro_blocks_in_epoch : Int) + 1)
            + ((winner.map Prod.snd).getD 0)
          if b.header.block_reward = full_reward then some aw else none
    match awardsStep with
    | none => none
    | some awards' =>
      let sA := { s with awards := awards' }
      match sA.register_inputs_and_outputs lsn block_hash input_hashes inputs
          output_keys outputs b.header.gamma b.header.block_reward with
      | none => none
      | some s2 =>
        let s3 := { s2 with
          epoch := s2.epoch + 1,
          offset := 0,
          last_block_timestamp := b.header.timestamp,
          last_block_hash := block_hash,
          last_macro_block_timestamp := b.header.timestamp,
          last_macro_block_random := b.header.random.rand,
          last_macro_block_hash := block_hash }
        let stakers := s3.escrow.get_stakers_majority s3.epoch s3.cfg.min_stake_amount
        let er := select_validators_slots stakers b.header.random s3.cfg.max_slot_count
        let s4 := { s3 with
          election_result := (s3.election_result.insert lsn () er).2,
          difficulty := b.header.difficulty }
        some ({ s4 with
          block_by_hash := s4.block_by_hash.checkpoint,
          output_by_hash := s4.output_by_hash.checkpoint,
          balance := s4.balance.checkpoint,
          escrow := s4.escrow.checkpoint }, inputs, outputs)

/-- `push_macro_block(block, _timestamp)`: assert position, resolve the
inputs, write the block to the log, and register it. -/
def push_macro_block (s : ChainState) (b : MacroBlock) :
    Option (ChainState × List Output × List Output) :=
  if b.header.epoch ≠ s.epoch then none
  else if s.offset ≠ 0 then none
  else
    match s.resolveInputs b.inputs with
    | none => none
    | some inputs =>
      let lsn : LSN := ⟨s.epoch, MACRO_BLOCK_OFFSET⟩
      let s' := { s with db := setA s.db lsn (Block.macroB b) }
      s'.register_macro_block lsn b inputs

end ChainState

/-- The restored/pruned-output scan of `pop_micro_block`, run after the
rollback: re-resolve the popped block's inputs (now restored) and collect
its outputs; payment and restake transactions are returned to the caller. -/
def popScan (s : ChainState) : List Tx → Option (List Output × List Output × List Tx)
  | [] => some ([], [], [])
  | tx :: rest =>
    match s.resolveInputs tx.txins with
    | none => none
    | some ins =>
      match popScan s rest with
      | none => none
      | some (created, pruned, removed) =>
        let removed' :=
          match tx with
          | .payment _ => tx :: removed
          | .restake _ => tx :: removed
          | _ => removed
        some (ins ++ created, tx.txouts ++ pruned, removed')

namespace ChainState

/-- `pop_micro_block()`: read and delete the last micro block from the log,
roll every MVM back to the preceding LSN, restore the last-block scalars,
reset the view change, and report the pruned outputs, restored outputs and
removed transactions. -/
def pop_micro_block (s : ChainState) :
    Option (List Output × List Output × List Tx × ChainState) :=
  if s.epoch = 0 then none
  else if s.offset = 0 then none
  else
    let offset := s.offset - 1
    match s.micro_block_m s.epoch offset with
    | none => none
    | some block =>
      let prevInfo : Option (Hash × LSN × Timestamp) :=
        if offset = 0 then
          match s.macro_block_m (s.epoch - 1) with
          | none => none
          | some mb => some (mb.digest, ⟨s.epoch - 1, MACRO_BLOCK_OFFSET⟩, mb.header.timestamp)
        else
          match s.micro_block_m s.epoch (offset - 1) with
          | none => none
          | some pb => some (pb.digest, ⟨s.epoch, offset - 1⟩, pb.header.timestamp)
      match prevInfo with
      | none => none
      | some (previous, lsn, last_block_timestamp) =>
        let s1 := { s with
          db := delA s.db ⟨s.epoch, offset⟩,
          block_by_hash := s.block_by_hash.rollback_to_lsn lsn,
          output_by_hash := s.output_by_hash.rollback_to_lsn lsn,
          balance := s.balance.rollback_to_lsn lsn,
          escrow := s.escrow.rollback_to_lsn lsn,
          epoch_activity := s.epoch_activity.rollback_to_lsn lsn,
          election_result := s.election_result.rollback_to_lsn lsn }
        if s1.block_by_hash.current_lsn ≠ lsn then none
        else if s1.election_result.current_lsn ≠ lsn then none
        else if ¬ s1.epoch_activity.current_lsn ≤ lsn then none
        else if ¬ s1.output_by_hash.current_lsn ≤ lsn then none
        else if ¬ s1.balance.current_lsn ≤ lsn then none
        else if ¬ s1.escrow.current_lsn ≤ lsn then none
        else
          let s2 := { s1 with
            offset := offset,
            last_block_hash := previous,
            last_block_timestamp := last_block_timestamp }
          match s2.reset_view_change with
          | none => none
          | some s3 =>
            match popScan s3 block.transactions with
            | none => none
            | some (created, pruned, removed) => some (pruned, created, removed, s3)

/-- `recover_block(block)`: dispatch the stored block to the micro or macro
register path (validation is skipped on recovery unless `force_check`,
which delegates to the external validator and is not modelled). -/
def recover_block (s : ChainState) (block : Block) : Option ChainState :=
  match block with
  | .microB b =>
    match s.register_micro_block ⟨b.header.epoch, b.header.offset⟩ b with
    | none => none
    | some (_, _, _, s') => some s'
  | .macroB b =>
    match s.resolveInputs b.inputs with
    | none => none
    | some inputs =>
      match s.register_macro_block ⟨b.header.epoch, MACRO_BLOCK_OFFSET⟩ b inputs with
      | none => none
      | some (s', _, _) => some s'

end ChainState

/-- Fold `recover_block` over the remaining stored blocks. -/
def recoverList (s : ChainState) : List Block → Option ChainState
  | [] => some s
  | b :: rest =>
    match s.recover_block b with
    | none => none
    | some s' => recoverList s' rest

namespace ChainState

/-- `recover(genesis, ...)` as `Blockchain::new` runs it: an empty log
applies the supplied genesis; otherwise the first stored block is recovered
and must hash to the supplied genesis, else `IncompatibleGenesis` carrying
both hashes is returned without touching the remaining blocks. -/
def recover (s : ChainState) (genesis : MacroBlock) :
    Option (Except BlockchainError ChainState) :=
  let genesis_hash := genesis.digest
  match s.db.map Prod.snd with
  | [] =>
    match s.push_macro_block genesis with
    | none => none
    | some (s', _, _) => some (Except.ok s')
  | block :: rest =>
    match s.recover_block block with
    | none => none
    | some s1 =>
      if genesis_hash ≠ s1.last_block_hash then
        some (Except.error (BlockchainError.IncompatibleGenesis genesis_hash s1.last_block_hash))
      else
        match recoverList s1 rest with
        | none => none
        | some s2 => some (Except.ok s2)

end ChainState

/-- `Hash::digest("genesis")`, the placeholder hash of a fresh chain. -/
def genesisTag : Hash := hmix 99 0

/-- The in-memory state `Blockchain::new` builds before `recover`: empty
indexes, the initial zero `Balance` at `INITIAL_LSN`, and the stored block
log read from disk. -/
def ChainState.newInit (cfg : ChainConfig) (db : List (LSN × Block))
    (genesis : MacroBlock) : ChainState :=
  { cfg := cfg,
    db := db,
    block_by_hash := MVM.new,
    output_by_hash := MVM.new,
    balance := (MVM.new.insert INITIAL_LSN () ⟨Pt.identity, Pt.identity, 0, 0⟩).2,
    escrow := Escrow.new,
    difficulty := genesis.header.difficulty,
    epoch := 0,
    offset := 0,
    election_result := MVM.new,
    view_change_proof := none,
    last_macro_block_timestamp := 0,
    last_macro_block_hash := genesisTag,
    last_macro_block_random := genesisTag,
    last_block_timestamp := 0,
    last_block_hash := genesisTag,
    awards := Awards.new cfg.awards_difficulty,
    epoch_activity := MVM.new }

/-- `Blockchain::new(cfg, chain_dir, force_check, genesis, timestamp)`:
build the fresh state over the stored log and run `recover`. -/
def ChainState.new (cfg : ChainConfig) (db : List (LSN × Block))
    (genesis : MacroBlock) : Option (Except BlockchainError ChainState) :=
  (ChainState.newInit cfg db genesis).recover genesis

/-! ### Further association-list utilities. -/

section AssocMore

variable {K V : Type} [LinearOrder K] [DecidableEq K] [DecidableEq V]

theorem lookupA_setA_self (m : List (K × V)) (k : K) (v : V) :
    lookupA (setA m k v) k = some v := by
  induction m with
  | nil => simp [setA, lookupA]
  | cons a t ih =>
    simp only [setA]
    by_cases h1 : k < a.1
    · rw [if_pos h1]; simp [lookupA]
    · rw [if_neg h1]
      by_cases h2 : k = a.1
      · rw [if_pos h2]; simp [lookupA]
      · rw [if_neg h2]; simp [lookupA, h2, ih]

theorem lookupA_setA_ne (m : List (K × V)) {k k' : K} (v : V) (h : k' ≠ k) :
    lookupA (setA m k v) k' = lookupA m k' := by
  induction m with
  | nil => simp [setA, lookupA, h]
  | cons a t ih =>
    simp only [setA]
    by_cases h1 : k < a.1
    · rw [if_pos h1]; simp [lookupA, h]
    · rw [if_neg h1]
      by_cases h2 : k = a.1
      · rw [if_pos h2]
        simp only [lookupA]
        have h' : k' ≠ a.1 := fun hc => h (hc.trans h2.symm)
        rw [if_neg h, if_neg h']
      · rw [if_neg h2]
        simp only [lookupA]
        by_cases h3 : k' = a.1
        · rw [if_pos h3, if_pos h3]
        · rw [if_neg h3, if_neg h3, ih]

theorem setA_lookup_self {m : List (K × V)} {k : K} {v : V}
    (hs : KeysSorted m) (h : lookupA m k = some v) : setA m k v = m := by
  induction m with
  | nil => simp [lookupA] at h
  | cons a t ih =>
    obtain ⟨a1, a2⟩ := a
    simp only [lookupA] at h
    by_cases hk : k = a1
    · rw [if_pos hk] at h
      injection h with h
      subst hk; subst h
      simp [setA]
    · rw [if_neg hk] at h
      have hagtk : a1 < k := by
        have hmem := mem_keys_of_lookupA_some h
        obtain ⟨e, he, hke⟩ := List.mem_map.mp hmem
        have := keysSorted_head hs e he
        rw [hke] at this; exact this
      simp only [setA]
      rw [if_neg (not_lt_of_gt hagtk), if_neg hk, ih (keysSorted_cons hs) h]

end AssocMore

/-! ### Claim C7: the block key is an order embedding. -/

theorem beBytes_length (w n : Nat) : (beBytes w n).length = w := by
  induction w generalizing n with
  | zero => rfl
  | succ w ih => simp [beBytes, ih]

theorem bytesLt_irrefl : ∀ x : List Nat, ¬ bytesLt x x
  | [] => fun h => h
  | a :: as => fun h => by
    rcases h with h | ⟨_, h⟩
    · exact lt_irrefl a h
    · exact bytesLt_irrefl as h

theorem bytesLt_asymm : ∀ x y : List Nat, bytesLt x y → bytesLt y x → False
  | [], [], h, _ => h
  | [], _ :: _, _, h' => h'
  | _ :: _, [], h, _ => h
  | a :: as, b :: bs, h, h' => by
    rcases h with h | ⟨he, h⟩
    · rcases h' with h' | ⟨he', _⟩
      · omega
      · omega
    · rcases h' with h' | ⟨_, h'⟩
      · omega
      · exact bytesLt_asymm as bs h h'

theorem beBytes_lt_of_lt (w : Nat) :
    ∀ m n : Nat, n < 256 ^ w → m < n → bytesLt (beBytes w m) (beBytes w n) := by
  induction w with
  | zero => intro m n hn hmn; omega
  | succ w ih =>
    intro m n hn hmn
    simp only [beBytes]
    by_cases hq : m / 256 ^ w < n / 256 ^ w
    · exact Or.inl hq
    · have hq2 : m / 256 ^ w = n / 256 ^ w := by
        have : m / 256 ^ w ≤ n / 256 ^ w := Nat.div_le_div_right (le_of_lt hmn)
        omega
      refine Or.inr ⟨hq2, ih (m % 256 ^ w) (n % 256 ^ w) ?_ ?_⟩
      · exact Nat.mod_lt _ (Nat.pos_pow_of_pos w (by norm_num))
      · have hm2 := Nat.div_add_mod m (256 ^ w)
        have hn2 := Nat.div_add_mod n (256 ^ w)
        rw [← hq2] at hn2
        omega

theorem beBytes_lt_iff {w m n : Nat} (hm : m < 256 ^ w) (hn : n < 256 ^ w) :
    m < n ↔ bytesLt (beBytes w m) (beBytes w n) := by
  constructor
  · exact beBytes_lt_of_lt w m n hn
  · intro h
    rcases Nat.lt_trichotomy m n with h1 | h1 | h1
    · exact h1
    · subst h1
      exact absurd h (bytesLt_irrefl _)
    · exact absurd (beBytes_lt_of_lt w n m hm h1) (fun h' => bytesLt_asymm _ _ h h')

theorem beBytes_inj {w m n : Nat} (hm : m < 256 ^ w) (hn : n < 256 ^ w)
    (h : beBytes w m = beBytes w n) : m = n := by
  rcases Nat.lt_trichotomy m n with h1 | h1 | h1
  · exact absurd ((beBytes_lt_iff hm hn).mp h1) (h ▸ bytesLt_irrefl _)
  · exact h1
  · exact absurd ((beBytes_lt_iff hn hm).mp h1) (h ▸ bytesLt_irrefl _)

theorem bytesLt_append : ∀ (x y u v : List Nat), x.length = y.length →
    (bytesLt (x ++ u) (y ++ v) ↔ (bytesLt x y ∨ (x = y ∧ bytesLt u v)))
  | [], [], u, v, _ => by simp [bytesLt]
  | [], b :: bs, _, _, h => by simp at h
  | a :: as, [], _, _, h => by simp at h
  | a :: as, b :: bs, u, v, h => by
    simp only [List.cons_append, bytesLt]
    have ih := bytesLt_append as bs u v (by simpa using h)
    constructor
    · rintro (h1 | ⟨he, h1⟩)
      · exact Or.inl (Or.inl h1)
      · rcases ih.mp h1 with h2 | ⟨h2, h3⟩
        · exact Or.inl (Or.inr ⟨he, h2⟩)
        · exact Or.inr ⟨by rw [he, h2], h3⟩
    · rintro ((h1 | ⟨he, h1⟩) | ⟨he, h1⟩)
      · exact Or.inl h1
      · exact Or.inr ⟨he, ih.mpr (Or.inl h1)⟩
      · injection he with he1 he2
        exact Or.inr ⟨he1, ih.mpr (Or.inr ⟨he2, h1⟩)⟩

/-- Claim C7: the 12-byte block key (8-byte big-endian epoch, 4-byte
big-endian offset) is an order embedding — for LSNs within the `u64`/`u32`
ranges, lexicographic `(epoch, offset)` order coincides with
byte-lexicographic order of `block_key`; and because the macro-block
offset `0xFFFFFFFF` is the maximal `u32`, every micro-block key of an epoch
precedes that epoch's macro-block key, so full byte-order iteration of the
log is the exact apply order. -/
theorem block_key_order_embedding :
    (∀ a b : LSN, a.ep < 2 ^ 64 → b.ep < 2 ^ 64 → a.off < 2 ^ 32 → b.off < 2 ^ 32 →
      (a < b ↔ bytesLt (block_key a) (block_key b))) ∧
    (∀ ep off : Nat, off < MACRO_BLOCK_OFFSET →
      bytesLt (block_key ⟨ep, off⟩) (block_key ⟨ep, MACRO_BLOCK_OFFSET⟩)) := by
  have h64 : (2 : Nat) ^ 64 = 256 ^ 8 := by norm_num
  have h32 : (2 : Nat) ^ 32 = 256 ^ 4 := by norm_num
  constructor
  · intro a b hae hbe hao hbo
    rw [h64] at hae hbe
    rw [h32] at hao hbo
    rw [LSN.lt_def]
    unfold block_key
    rw [bytesLt_append _ _ _ _ (by simp [beBytes_length])]
    constructor
    · rintro (h | ⟨he, ho⟩)
      · exact Or.inl ((beBytes_lt_iff hae hbe).mp h)
      · exact Or.inr ⟨by rw [he], (beBytes_lt_iff hao hbo).mp ho⟩
    · rintro (h | ⟨he, ho⟩)
      · exact Or.inl ((beBytes_lt_iff hae hbe).mpr h)
      · exact Or.inr ⟨beBytes_inj hae hbe he, (beBytes_lt_iff hao hbo).mpr ho⟩
  · intro ep off hoff
    unfold block_key
    rw [bytesLt_append _ _ _ _ (by simp [beBytes_length])]
    refine Or.inr ⟨rfl, ?_⟩
    refine beBytes_lt_of_lt 4 off MACRO_BLOCK_OFFSET ?_ hoff
    norm_num [MACRO_BLOCK_OFFSET]

/-- Witness for C7 at concrete LSNs. -/
theorem block_key_order_embedding_witness :
    ((⟨1, 5⟩ : LSN) < ⟨1, 7⟩ ↔ bytesLt (block_key ⟨1, 5⟩) (block_key ⟨1, 7⟩)) ∧
    bytesLt (block_key ⟨3, 9⟩) (block_key ⟨3, MACRO_BLOCK_OFFSET⟩) :=
  ⟨block_key_order_embedding.1 ⟨1, 5⟩ ⟨1, 7⟩ (by norm_num) (by norm_num)
      (by norm_num) (by norm_num),
   block_key_order_embedding.2 3 9 (by norm_num [MACRO_BLOCK_OFFSET])⟩

/-! ### Sums of Pedersen commitments. -/

/-- Sum of a list of points, as the accumulation loops compute it. -/
def ptSum : List Pt → Pt
  | [] => Pt.identity
  | x :: t => x + ptSum t

theorem add_pt_identity (p : Pt) : p + Pt.identity = p := by
  cases p with
  | mk x y =>
    show (x + 0, y + 0) = (x, y)
    simp

theorem processInputs_burned {lsn : LSN} {e : Nat} {lst : List (Hash × Output)}
    {om om' : MVM Hash OutputKey} {es es' : Escrow} {b0 b' : Pt}
    (h : processInputs lsn e lst om es b0 = some (om', es', b')) :
    b' = b0 + ptSum (lst.map (fun p => p.2.pedersen_commitment)) := by
  induction lst generalizing om es b0 with
  | nil =>
    simp only [processInputs] at h
    injection h with h
    rw [Prod.mk.injEq, Prod.mk.injEq] at h
    rw [← h.2.2]
    simp [ptSum, add_pt_identity]
  | cons x rest ih =>
    obtain ⟨xh, xo⟩ := x
    simp only [processInputs] at h
    cases hrm : (om.remove lsn xh).1 with
    | none => rw [hrm] at h; exact Option.noConfusion h
    | some prior =>
      rw [hrm] at h
      simp only [List.map_cons, ptSum]
      cases xo with
      | stake v r a sn =>
        simp only at h
        split at h
        · have := ih h
          rw [this, add_assoc]
        · exact Option.noConfusion h
      | payment pc r sn =>
        have := ih h
        rw [this, add_assoc]
      | publicPayment r a sn =>
        have := ih h
        rw [this, add_assoc]

theorem processOutputs_created {lsn : LSN} {e se : Nat} {lst : List (OutputKey × Output)}
    {om om' : MVM Hash OutputKey} {es es' : Escrow} {c0 c' : Pt}
    (h : processOutputs lsn e se lst om es c0 = some (om', es', c')) :
    c' = c0 + ptSum (lst.map (fun p => p.2.pedersen_commitment)) := by
  induction lst generalizing om es c0 with
  | nil =>
    simp only [processOutputs] at h
    injection h with h
    rw [Prod.mk.injEq, Prod.mk.injEq] at h
    rw [← h.2.2]
    simp [ptSum, add_pt_identity]
  | cons x rest ih =>
    obtain ⟨xk, xo⟩ := x
    simp only [processOutputs] at h
    cases hins : (om.insert lsn xo.digest xk).1 with
    | some prior => rw [hins] at h; exact Option.noConfusion h
    | none =>
      rw [hins] at h
      by_cases hlsn : (om.insert lsn xo.digest xk).2.current_lsn = lsn
      · rw [if_pos hlsn] at h
        simp only [List.map_cons, ptSum]
        cases xo with
        | stake v r a sn =>
          simp only at h
          split at h
          · have := ih h
            rw [this, add_assoc]
          · exact Option.noConfusion h
        | payment pc r sn =>
          have := ih h
          rw [this, add_assoc]
        | publicPayment r a sn =>
          have := ih h
          rw [this, add_assoc]
      · rw [if_neg hlsn] at h
        exact Option.noConfusion h

/-! ### Claim C1: the monetary balance equations in the shared apply step. -/

/-- Claim C1: every successful `register_inputs_and_outputs` implies that
the per-block monetary equation `fee_a(block_reward) + burned − created =
gamma·G` held over the block's aggregates (the code panics otherwise), and
that the new global `Balance` — the pointwise sum of the previous `Balance`
and the block's `(created, burned, gamma, block_reward)` — satisfies the
same equation and is stored at the block's LSN; hence the stored global
`Balance` at every LSN reached by successful applies satisfies the
equation. -/
theorem register_io_monetary_balance (s s' : ChainState) (lsn : LSN) (bh : Hash)
    (ihs : List Hash) (ins : List Output) (oks : List OutputKey) (outs : List Output)
    (γ : Fr) (r : Int)
    (h : s.register_inputs_and_outputs lsn bh ihs ins oks outs γ r = some s') :
    (fee_a r + ptSum ((ihs.zip ins).map (fun p => p.2.pedersen_commitment))
        - ptSum ((oks.zip outs).map (fun p => p.2.pedersen_commitment))
      = frMul γ Pt.one) ∧
    (∃ orig : Balance, s.balance.get () = some orig ∧
      s'.balance.get () = some
        ⟨orig.created + ptSum ((oks.zip outs).map (fun p => p.2.pedersen_commitment)),
         orig.burned + ptSum ((ihs.zip ins).map (fun p => p.2.pedersen_commitment)),
         orig.gamma + γ, orig.block_reward + r⟩ ∧
      fee_a (orig.block_reward + r)
          + (orig.burned + ptSum ((ihs.zip ins).map (fun p => p.2.pedersen_commitment)))
          - (orig.created + ptSum ((oks.zip outs).map (fun p => p.2.pedersen_commitment)))
        = frMul (orig.gamma + γ) Pt.one ∧
      s'.balance.current_lsn = lsn) := by
  unfold ChainState.register_inputs_and_outputs at h
  simp only [] at h
  cases hblk : (s.block_by_hash.insert lsn bh lsn).1 with
  | some v => rw [hblk] at h; exact Option.noConfusion h
  | none =>
  rw [hblk] at h
  simp only [] at h
  by_cases hlsn : (s.block_by_hash.insert lsn bh lsn).2.current_lsn = lsn
  case neg => rw [if_neg hlsn] at h; exact Option.noConfusion h
  rw [if_pos hlsn] at h
  cases hpi : processInputs lsn s.epoch (ihs.zip ins) s.output_by_hash s.escrow
      Pt.identity with
  | none => rw [hpi] at h; exact Option.noConfusion h
  | some t1 =>
  obtain ⟨om, es, burned⟩ := t1
  rw [hpi] at h
  simp only [] at h
  cases hpo : processOutputs lsn s.epoch s.cfg.stake_epochs (oks.zip outs) om es
      Pt.identity with
  | none => rw [hpo] at h; exact Option.noConfusion h
  | some t2 =>
  obtain ⟨om2, es2, created⟩ := t2
  rw [hpo] at h
  simp only [] at h
  have hb : burned = ptSum ((ihs.zip ins).map (fun p => p.2.pedersen_commitment)) := by
    have := processInputs_burned hpi
    rw [this]
    cases hx : ptSum ((ihs.zip ins).map (fun p => p.2.pedersen_commitment)) with
    | mk x y => show (0 + x, 0 + y) = (x, y); simp
  have hc : created = ptSum ((oks.zip outs).map (fun p => p.2.pedersen_commitment)) := by
    have := processOutputs_created hpo
    rw [this]
    cases hx : ptSum ((oks.zip outs).map (fun p => p.2.pedersen_commitment)) with
    | mk x y => show (0 + x, 0 + y) = (x, y); simp
  by_cases hpb : fee_a r + burned - created ≠ frMul γ Pt.one
  · rw [if_pos hpb] at h; exact Option.noConfusion h
  rw [if_neg hpb] at h
  push_neg at hpb
  cases hbal : s.balance.get () with
  | none => rw [hbal] at h; exact Option.noConfusion h
  | some orig =>
  rw [hbal] at h
  simp only [] at h
  by_cases hgl : fee_a (orig.block_reward + r) + (orig.burned + burned)
      - (orig.created + created) ≠ frMul (orig.gamma + γ) Pt.one
  · rw [if_pos hgl] at h; exact Option.noConfusion h
  rw [if_neg hgl] at h
  push_neg at hgl
  by_cases hbl : (s.balance.insert lsn ()
      ⟨orig.created + created, orig.burned + burned, orig.gamma + γ,
       orig.block_reward + r⟩).2.current_lsn = lsn
  case neg => rw [if_neg hbl] at h; exact Option.noConfusion h
  rw [if_pos hbl] at h
  injection h with h
  subst h
  refine ⟨by rw [← hb, ← hc]; exact hpb, orig, rfl, ?_, by rw [← hb, ← hc]; exact hgl, ?_⟩
  · show (s.balance.insert lsn () _).2.get () = _
    unfold MVM.get MVM.insert
    rw [lookupA_setA_self]
    rw [hb, hc]
  · show (s.balance.insert lsn () _).2.current_lsn = lsn
    exact hbl

/-! ### Concrete chain data shared by the witnesses. -/

/-- A small test configuration. -/
def wcfg : ChainConfig :=
  { max_slot_count := 1000, min_stake_amount := 5, stake_epochs := 1,
    micro_blocks_in_epoch := 2, awards_difficulty := 0,
    block_reward := 0, service_award_per_epoch := 0 }

/-- A concrete genesis macro block staking 5 for validator 1. -/
def wGenesis : MacroBlock :=
  { header := { version := VERSION, epoch := 0, view_change := 0,
                previous := genesisTag, timestamp := 1, random := ⟨5⟩,
                difficulty := 10, pkey := 1, gamma := 0, block_reward := 5,
                activity_map := [], inputs_len := 0, outputs_len := 1 },
    inputs := [],
    outputs := [Output.stake 1 100 5 1] }

/-- The ledger state created over the genesis block. -/
def wChain1 : ChainState :=
  match ChainState.new wcfg [] wGenesis with
  | some (.ok s) => s
  | _ => ChainState.newInit wcfg [] wGenesis

/-- An empty micro block extending `wChain1`. -/
def wMicroEmpty : MicroBlock :=
  { header := { version := VERSION, epoch := 1, offset := 0,
                previous := wGenesis.digest, timestamp := 2,
                view_change := 0, random := ⟨6⟩, pkey := 1 },
    transactions := [] }

/-- The result of registering an empty change set on `wChain1`. -/
def wIORes : ChainState :=
  (wChain1.register_inputs_and_outputs ⟨1, 0⟩ 555 [] [] [] [] 0 0).getD wChain1

/-- Witness for C1: a concrete successful register with its balance facts. -/
theorem register_io_monetary_balance_witness :
    (fee_a 0 + ptSum ((([] : List Hash).zip ([] : List Output)).map
        (fun p => p.2.pedersen_commitment))
      - ptSum ((([] : List OutputKey).zip ([] : List Output)).map
        (fun p => p.2.pedersen_commitment)) = frMul 0 Pt.one) ∧
    (∃ orig : Balance, wChain1.balance.get () = some orig ∧
      wIORes.balance.get () = some
        ⟨orig.created + ptSum ((([] : List OutputKey).zip ([] : List Output)).map
            (fun p => p.2.pedersen_commitment)),
         orig.burned + ptSum ((([] : List Hash).zip ([] : List Output)).map
            (fun p => p.2.pedersen_commitment)),
         orig.gamma + 0, orig.block_reward + 0⟩ ∧
      fee_a (orig.block_reward + 0)
          + (orig.burned + ptSum ((([] : List Hash).zip ([] : List Output)).map
            (fun p => p.2.pedersen_commitment)))
          - (orig.created + ptSum ((([] : List OutputKey).zip ([] : List Output)).map
            (fun p => p.2.pedersen_commitment)))
        = frMul (orig.gamma + 0) Pt.one ∧
      wIORes.balance.current_lsn = ⟨1, 0⟩) :=
  register_io_monetary_balance wChain1 wIORes ⟨1, 0⟩ 555 [] [] [] [] 0 0 (by decide)

/-! ### Claim C10: `output_by_hash` returns `Ok(None)` for missing and
pruned outputs. -/

/-- Claim C10: `output_by_hash(h)` returns `Ok(None)` — not an error and
not a panic — both when `h` is absent from the output index, and when the
index maps `h` to a macro-block `OutputKey` whose `output_id` is out of
range of that stored macro block's output list (a pruned output). -/
theorem output_by_hash_missing_and_pruned (s : ChainState) (h : Hash)
    (epoch output_id : Nat) (mb : MacroBlock) :
    (s.output_by_hash.get h = none → s.output_by_hash_m h = some none) ∧
    (s.output_by_hash.get h = some (OutputKey.macroKey epoch output_id) →
      s.macro_block_m epoch = some mb →
      mb.outputs.length ≤ output_id →
      s.output_by_hash_m h = some none) := by
  constructor
  · intro hnone
    unfold ChainState.output_by_hash_m
    rw [hnone]
  · intro hkey hmb hlen
    unfold ChainState.output_by_hash_m
    rw [hkey]
    simp only []
    rw [hmb]
    simp only []
    rw [List.get?_eq_none.mpr hlen]

/-- Witness for C10 on `wChain1`: hash 555 is unindexed, and a state whose
index maps hash 7 to a pruned macro output id returns `Ok(None)`. -/
theorem output_by_hash_missing_and_pruned_witness :
    (wChain1.output_by_hash_m 555 = some none) ∧
    ({ wChain1 with output_by_hash :=
        (wChain1.output_by_hash.insert ⟨1, 0⟩ 7 (OutputKey.macroKey 0 9)).2
      }.output_by_hash_m 7 = some none) :=
  ⟨(output_by_hash_missing_and_pruned wChain1 555 0 0 wGenesis).1 (by decide),
   (output_by_hash_missing_and_pruned _ 7 0 9 wGenesis).2 (by decide) (by decide)
     (by decide)⟩

/-- Recognize a `SlashingTransaction`. -/
def Tx.isSlash : Tx → Bool
  | .slashing _ => true
  | _ => false

/-- Every slashing transaction (if any) names `c` as the cheater. -/
def slashOnly (c : PKey) : Tx → Bool
  | .slashing t => t.cheater_key == c
  | _ => true

/-! ### Inversion and frame lemmas for the apply paths. -/

/-- Full inversion of a successful `register_inputs_and_outputs`. -/
theorem register_io_inversion {s s' : ChainState} {lsn : LSN} {bh : Hash}
    {ihs : List Hash} {ins : List Output} {oks : List OutputKey} {outs : List Output}
    {γ : Fr} {r : Int}
    (h : s.register_inputs_and_outputs lsn bh ihs ins oks outs γ r = some s') :
    ∃ (om2 : MVM Hash OutputKey) (es2 : Escrow) (burned created : Pt)
      (om : MVM Hash OutputKey) (es : Escrow) (orig : Balance),
      lookupA s.block_by_hash.map bh = none ∧
      (s.block_by_hash.insert lsn bh lsn).2.current_lsn = lsn ∧
      processInputs lsn s.epoch (ihs.zip ins) s.output_by_hash s.escrow Pt.identity
        = some (om, es, burned) ∧
      processOutputs lsn s.epoch s.cfg.stake_epochs (oks.zip outs) om es Pt.identity
        = some (om2, es2, created) ∧
      s.balance.get () = some orig ∧
      (s.balance.insert lsn ()
        ⟨orig.created + created, orig.burned + burned, orig.gamma + γ,
         orig.block_reward + r⟩).2.current_lsn = lsn ∧
      s' = { s with
        block_by_hash := (s.block_by_hash.insert lsn bh lsn).2,
        output_by_hash := om2,
        escrow := es2,
        balance := (s.balance.insert lsn ()
          ⟨orig.created + created, orig.burned + burned, orig.gamma + γ,
           orig.block_reward + r⟩).2 } := by
  unfold ChainState.register_inputs_and_outputs at h
  simp only [] at h
  cases hblk : (s.block_by_hash.insert lsn bh lsn).1 with
  | some v => rw [hblk] at h; exact Option.noConfusion h
  | none =>
  rw [hblk] at h
  simp only [] at h
  by_cases hlsn : (s.block_by_hash.insert lsn bh lsn).2.current_lsn = lsn
  case neg => rw [if_neg hlsn] at h; exact Option.noConfusion h
  rw [if_pos hlsn] at h
  cases hpi : processInputs lsn s.epoch (ihs.zip ins) s.output_by_hash s.escrow
      Pt.identity with
  | none => rw [hpi] at h; exact Option.noConfusion h
  | some t1 =>
  obtain ⟨om, es, burned⟩ := t1
  rw [hpi] at h
  simp only [] at h
  cases hpo : processOutputs lsn s.epoch s.cfg.stake_epochs (oks.zip outs) om es
      Pt.identity with
  | none => rw [hpo] at h; exact Option.noConfusion h
  | some t2 =>
  obtain ⟨om2, es2, created⟩ := t2
  rw [hpo] at h
  simp only [] at h
  by_cases hpb : fee_a r + burned - created ≠ frMul γ Pt.one
  · rw [if_pos hpb] at h; exact Option.noConfusion h
  rw [if_neg hpb] at h
  cases hbal : s.balance.get () with
  | none => rw [hbal] at h; exact Option.noConfusion h
  | some orig =>
  rw [hbal] at h
  simp only [] at h
  by_cases hgl : fee_a (orig.block_reward + r) + (orig.burned + burned)
      - (orig.created + created) ≠ frMul (orig.gamma + γ) Pt.one
  · rw [if_pos hgl] at h; exact Option.noConfusion h
  rw [if_neg hgl] at h
  by_cases hbl : (s.balance.insert lsn ()
      ⟨orig.created + created, orig.burned + burned, orig.gamma + γ,
       orig.block_reward + r⟩).2.current_lsn = lsn
  case neg => rw [if_neg hbl] at h; exact Option.noConfusion h
  rw [if_pos hbl] at h
  injection h with h
  exact ⟨om2, es2, burned, created, om, es, orig, hblk, hlsn, rfl, hpo, rfl, hbl, h.symm⟩

/-- What `processInputs` does to map state: it preserves sortedness, it
commutes with rollback past its LSN, and it keeps `current_lsn ≤ lsn`. -/
theorem processInputs_state {lsn t : LSN} {e : Nat} {lst : List (Hash × Output)}
    {om om' : MVM Hash OutputKey} {es es' : Escrow} {b0 b' : Pt}
    (h : processInputs lsn e lst om es b0 = some (om', es', b'))
    (hso : om.Sorted) (hse : es.mvm.Sorted) (hl : ¬ lsn ≤ t) :
    om'.Sorted ∧ es'.mvm.Sorted ∧
    om'.rollback_to_lsn t = om.rollback_to_lsn t ∧
    es'.mvm.rollback_to_lsn t = es.mvm.rollback_to_lsn t ∧
    (om.current_lsn ≤ lsn → om'.current_lsn ≤ lsn) ∧
    (es.mvm.current_lsn ≤ lsn → es'.mvm.current_lsn ≤ lsn) := by
  induction lst generalizing om es b0 with
  | nil =>
    simp only [processInputs] at h
    injection h with h
    rw [Prod.mk.injEq, Prod.mk.injEq] at h
    rw [← h.1, ← h.2.1]
    exact ⟨hso, hse, rfl, rfl, id, id⟩
  | cons x rest ih =>
    obtain ⟨xh, xo⟩ := x
    simp only [processInputs] at h
    cases hrm : (om.remove lsn xh).1 with
    | none => rw [hrm] at h; exact Option.noConfusion h
    | some prior =>
      rw [hrm] at h
      have hso2 : (om.remove lsn xh).2.Sorted := MVM.sorted_remove om lsn xh hso
      have hro2 : (om.remove lsn xh).2.rollback_to_lsn t = om.rollback_to_lsn t :=
        MVM.rollback_remove om lsn t xh hso hl
      have hlo2 : om.current_lsn ≤ lsn → (om.remove lsn xh).2.current_lsn ≤ lsn :=
        fun hc => by
          show max om.lsn lsn ≤ lsn
          exact max_le hc le_rfl
      cases xo with
      | stake v rcp a sn =>
        simp only at h
        split at h
        · have := ih h hso2 (MVM.sorted_remove es.mvm lsn _ hse)
          refine ⟨this.1, this.2.1, this.2.2.1.trans hro2, ?_, fun hc => this.2.2.2.2.1 (hlo2 hc), ?_⟩
          · refine this.2.2.2.1.trans ?_
            exact MVM.rollback_remove es.mvm lsn t _ hse hl
          · intro hc
            refine this.2.2.2.2.2 ?_
            show max es.mvm.lsn lsn ≤ lsn
            exact max_le hc le_rfl
        · exact Option.noConfusion h
      | payment pc rcp sn =>
        have := ih h hso2 hse
        exact ⟨this.1, this.2.1, this.2.2.1.trans hro2, this.2.2.2.1,
          fun hc => this.2.2.2.2.1 (hlo2 hc), this.2.2.2.2.2⟩
      | publicPayment rcp a sn =>
        have := ih h hso2 hse
        exact ⟨this.1, this.2.1, this.2.2.1.trans hro2, this.2.2.2.1,
          fun hc => this.2.2.2.2.1 (hlo2 hc), this.2.2.2.2.2⟩

/-- What `processOutputs` does to map state, mirroring
`processInputs_state`. -/
theorem processOutputs_state {lsn t : LSN} {e se : Nat} {lst : List (OutputKey × Output)}
    {om om' : MVM Hash OutputKey} {es es' : Escrow} {c0 c' : Pt}
    (h : processOutputs lsn e se lst om es c0 = some (om', es', c'))
    (hso : om.Sorted) (hse : es.mvm.Sorted) (hl : ¬ lsn ≤ t) :
    om'.Sorted ∧ es'.mvm.Sorted ∧
    om'.rollback_to_lsn t = om.rollback_to_lsn t ∧
    es'.mvm.rollback_to_lsn t = es.mvm.rollback_to_lsn t ∧
    (om.current_lsn ≤ lsn → om'.current_lsn ≤ lsn) ∧
    (es.mvm.current_lsn ≤ lsn → es'.mvm.current_lsn ≤ lsn) := by
  induction lst generalizing om es c0 with
  | nil =>
    simp only [processOutputs] at h
    injection h with h
    rw [Prod.mk.injEq, Prod.mk.injEq] at h
    rw [← h.1, ← h.2.1]
    exact ⟨hso, hse, rfl, rfl, id, id⟩
  | cons x rest ih =>
    obtain ⟨xk, xo⟩ := x
    simp only [processOutputs] at h
    cases hins : (om.insert lsn xo.digest xk).1 with
    | some prior => rw [hins] at h; exact Option.noConfusion h
    | none =>
      rw [hins] at h
      by_cases hlsn : (om.insert lsn xo.digest xk).2.current_lsn = lsn
      case neg => rw [if_neg hlsn] at h; exact Option.noConfusion h
      rw [if_pos hlsn] at h
      have hso2 : (om.insert lsn xo.digest xk).2.Sorted :=
        MVM.sorted_insert om lsn _ _ hso
      have hro2 : (om.insert lsn xo.digest xk).2.rollback_to_lsn t
          = om.rollback_to_lsn t := MVM.rollback_insert om lsn t _ _ hso hl
      have hlo2 : om.current_lsn ≤ lsn → (om.insert lsn xo.digest xk).2.current_lsn ≤ lsn :=
        fun hc => by
          show max om.lsn lsn ≤ lsn
          exact max_le hc le_rfl
      cases xo with
      | stake v rcp a sn =>
        simp only at h
        split at h
        · have := ih h hso2 (MVM.sorted_insert es.mvm lsn _ _ hse)
          refine ⟨this.1, this.2.1, this.2.2.1.trans hro2, ?_, fun hc => this.2.2.2.2.1 (hlo2 hc), ?_⟩
          · refine this.2.2.2.1.trans ?_
            exact MVM.rollback_insert es.mvm lsn t _ _ hse hl
          · intro hc
            refine this.2.2.2.2.2 ?_
            show max es.mvm.lsn lsn ≤ lsn
            exact max_le hc le_rfl
        · exact Option.noConfusion h
      | payment pc rcp sn =>
        have := ih h hso2 hse
        exact ⟨this.1, this.2.1, this.2.2.1.trans hro2, this.2.2.2.1,
          fun hc => this.2.2.2.2.1 (hlo2 hc), this.2.2.2.2.2⟩
      | publicPayment rcp a sn =>
        have := ih h hso2 hse
        exact ⟨this.1, this.2.1, this.2.2.1.trans hro2, this.2.2.2.1,
          fun hc => this.2.2.2.2.1 (hlo2 hc), this.2.2.2.2.2⟩

/-- What the transaction loop does to state: only the election result MVM
changes, sortedness is preserved, rollback past the loop's LSN sees through
it, and `current_lsn ≤ L` is preserved. -/
theorem txLoop_state {L : LSN} {e o : Nat} (t : LSN) :
    ∀ {txs : List Tx} {i : Nat} {s : ChainState} {acc : TxAcc}
      {s1 : ChainState} {acc' : TxAcc},
    txLoop L e o txs i s acc = some (s1, acc') →
    s.election_result.Sorted → ¬ L ≤ t →
    s1 = { s with election_result := s1.election_result } ∧
    s1.election_result.Sorted ∧
    s1.election_result.rollback_to_lsn t = s.election_result.rollback_to_lsn t ∧
    (s.election_result.current_lsn ≤ L → s1.election_result.current_lsn ≤ L) := by
  intro txs
  induction txs with
  | nil =>
    intro i s acc s1 acc' h hs hl
    simp only [txLoop] at h
    injection h with h
    rw [Prod.mk.injEq] at h
    rw [← h.1]
    exact ⟨rfl, hs, rfl, id⟩
  | cons tx rest ih =>
    intro i s acc s1 acc' h hs hl
    simp only [txLoop] at h
    cases hri : s.resolveInputs tx.txins with
    | none => rw [hri] at h; exact Option.noConfusion h
    | some ins =>
    rw [hri] at h
    simp only [] at h
    cases tx with
    | coinbase tc =>
      simp only [] at h
      split at h
      · exact Option.noConfusion h
      · exact ih h hs hl
    | payment tp =>
      simp only [] at h
      split at h
      · exact Option.noConfusion h
      · exact ih h hs hl
    | restake tr =>
      simp only [] at h
      split at h
      · exact Option.noConfusion h
      · exact ih h hs hl
    | serviceAward ta =>
      simp only [] at h
      exact Option.noConfusion h
    | slashing tsl =>
      simp only [] at h
      cases helm : s.election_result_m with
      | none => rw [helm] at h; exact Option.noConfusion h
      | some er =>
      rw [helm] at h
      simp only [] at h
      split at h
      · exact Option.noConfusion h
      · have hsE : ((s.election_result.insert L ()
            { er with validators :=
              er.validators.filter (fun kv => kv.1 ≠ tsl.cheater_key) }).2).Sorted :=
          MVM.sorted_insert _ _ _ _ hs
        have := ih h hsE hl
        refine ⟨this.1, this.2.1, this.2.2.1.trans ?_, fun hc => this.2.2.2 ?_⟩
        · exact MVM.rollback_insert _ _ _ _ _ hs hl
        · show max s.election_result.lsn L ≤ L
          exact max_le hc le_rfl

/-- What the skipped-view-change loop does to state: only `epoch_activity`
changes, with the same rollback and LSN facts. -/
theorem markSkipped_state {L : LSN} {e o : Nat} (t : LSN) :
    ∀ {vs : List Nat} {s s2 : ChainState},
    markSkipped L e o vs s = some s2 →
    s.epoch_activity.Sorted → ¬ L ≤ t →
    s2 = { s with epoch_activity := s2.epoch_activity } ∧
    s2.epoch_activity.Sorted ∧
    s2.epoch_activity.rollback_to_lsn t = s.epoch_activity.rollback_to_lsn t ∧
    (s.epoch_activity.current_lsn ≤ L → s2.epoch_activity.current_lsn ≤ L) := by
  intro vs
  induction vs with
  | nil =>
    intro s s2 h hs hl
    simp only [markSkipped] at h
    injection h with h
    rw [← h]
    exact ⟨rfl, hs, rfl, id⟩
  | cons v rest ih =>
    intro s s2 h hs hl
    simp only [markSkipped] at h
    cases helm : s.election_result_m with
    | none => rw [helm] at h; exact Option.noConfusion h
    | some er =>
    rw [helm] at h
    simp only [] at h
    have hsE : ((s.epoch_activity.insert L (er.select_leader v)
        (ValidatorAwardState.failedAt e o)).2).Sorted :=
      MVM.sorted_insert _ _ _ _ hs
    have := ih h hsE hl
    refine ⟨this.1, this.2.1, this.2.2.1.trans ?_, fun hc => this.2.2.2 ?_⟩
    · exact MVM.rollback_insert _ _ _ _ _ hs hl
    · show max s.epoch_activity.lsn L ≤ L
      exact max_le hc le_rfl

/-- Full inversion of a successful `register_micro_block`: the assertions
held, and the result decomposes into the transaction loop, the awards
update, the shared register step, and the metadata/election update. -/
theorem register_micro_inversion {s : ChainState} {L : LSN} {b : MicroBlock}
    {ins outs : List Output} {txs : List (Hash × Tx)} {s' : ChainState}
    (h : s.register_micro_block L b = some (ins, outs, txs, s')) :
    b.header.version = VERSION ∧ b.header.epoch = s.epoch ∧
    b.header.offset = s.offset ∧ b.header.previous = s.last_block_hash ∧
    s.last_block_timestamp < b.header.timestamp ∧ s.is_epoch_full = false ∧
    ∃ (s1 : ChainState) (acc : TxAcc) (s2 : ChainState) (er : ElectionResult)
      (s4 : ChainState) (er2 : ElectionResult),
      txLoop L s.epoch s.offset b.transactions 0 s ⟨[], [], [], [], 0, 0, []⟩
        = some (s1, acc) ∧
      markSkipped L s1.epoch s1.offset (List.range b.header.view_change) s1
        = some s2 ∧
      s2.election_result_m = some er ∧
      (if s2.epoch_activity.get (er.select_leader b.header.view_change) = none
       then { s2 with epoch_activity := (s2.epoch_activity.insert L
                (er.select_leader b.header.view_change) ValidatorAwardState.active).2 }
       else s2).register_inputs_and_outputs L b.digest acc.input_hashes acc.inputs
         acc.output_keys acc.outputs acc.gamma acc.block_reward = some s4 ∧
      s4.election_result_m = some er2 ∧
      ins = acc.inputs ∧ outs = acc.outputs ∧ txs = acc.txs ∧
      s' = { s4 with
        last_block_timestamp := b.header.timestamp,
        last_block_hash := b.digest,
        offset := s4.offset + 1,
        election_result := (s4.election_result.insert L ()
          { er2 with view_change := 0, random := b.header.random }).2 } := by
  unfold ChainState.register_micro_block at h
  by_cases h1 : b.header.version ≠ VERSION
  · rw [if_pos h1] at h; exact Option.noConfusion h
  rw [if_neg h1] at h
  push_neg at h1
  by_cases h2 : b.header.epoch ≠ s.epoch
  · rw [if_pos h2] at h; exact Option.noConfusion h
  rw [if_neg h2] at h
  push_neg at h2
  by_cases h3 : b.header.offset ≠ s.offset
  · rw [if_pos h3] at h; exact Option.noConfusion h
  rw [if_neg h3] at h
  push_neg at h3
  by_cases h4 : b.header.previous ≠ s.last_block_hash
  · rw [if_pos h4] at h; exact Option.noConfusion h
  rw [if_neg h4] at h
  push_neg at h4
  by_cases h5 : ¬ s.last_block_timestamp < b.header.timestamp
  · rw [if_pos h5] at h; exact Option.noConfusion h
  rw [if_neg h5] at h
  push_neg at h5
  by_cases h6 : s.is_epoch_full
  · rw [if_pos h6] at h; exact Option.noConfusion h
  rw [if_neg h6] at h
  simp only [] at h
  cases htl : txLoop L s.epoch s.offset b.transactions 0 s ⟨[], [], [], [], 0, 0, []⟩ with
  | none => rw [htl] at h; exact Option.noConfusion h
  | some p1 =>
  obtain ⟨s1, acc⟩ := p1
  rw [htl] at h
  simp only [] at h
  cases hms : markSkipped L s1.epoch s1.offset (List.range b.header.view_change) s1 with
  | none => rw [hms] at h; exact Option.noConfusion h
  | some s2 =>
  rw [hms] at h
  simp only [] at h
  cases helm : s2.election_result_m with
  | none => rw [helm] at h; exact Option.noConfusion h
  | some er =>
  rw [helm] at h
  simp only [] at h
  cases hreg : (if s2.epoch_activity.get (er.select_leader b.header.view_change) = none
      then { s2 with epoch_activity := (s2.epoch_activity.insert L
              (er.select_leader b.header.view_change) ValidatorAwardState.active).2 }
      else s2).register_inputs_and_outputs L b.digest acc.input_hashes acc.inputs
        acc.output_keys acc.outputs acc.gamma acc.block_reward with
  | none => rw [hreg] at h; exact Option.noConfusion h
  | some s4 =>
  rw [hreg] at h
  simp only [] at h
  cases her2 : ({ s4 with
      last_block_timestamp := b.header.timestamp,
      last_block_hash := b.digest,
      offset := s4.offset + 1 } : ChainState).election_result_m with
  | none => rw [her2] at h; exact Option.noConfusion h
  | some er2 =>
  rw [her2] at h
  simp only [] at h
  injection h with h
  rw [Prod.mk.injEq, Prod.mk.injEq, Prod.mk.injEq] at h
  refine ⟨h1, h2, h3, h4, h5, eq_false_of_ne_true (by simpa using h6), s1, acc, s2, er, s4, er2,
    rfl, hms, helm, hreg, her2, h.1.symm, h.2.1.symm, h.2.2.1.symm, h.2.2.2.symm⟩

/-- The transaction loop changes no field but the election result. -/
theorem txLoop_frame {L : LSN} {e o : Nat} :
    ∀ {txs : List Tx} {i : Nat} {s : ChainState} {acc : TxAcc}
      {s1 : ChainState} {acc' : TxAcc},
    txLoop L e o txs i s acc = some (s1, acc') →
    s1 = { s with election_result := s1.election_result } := by
  intro txs
  induction txs with
  | nil =>
    intro i s acc s1 acc' h
    simp only [txLoop] at h
    injection h with h
    rw [Prod.mk.injEq] at h
    rw [← h.1]
  | cons tx rest ih =>
    intro i s acc s1 acc' h
    simp only [txLoop] at h
    cases hri : s.resolveInputs tx.txins with
    | none => rw [hri] at h; exact Option.noConfusion h
    | some ins =>
    rw [hri] at h
    simp only [] at h
    cases tx with
    | coinbase tc =>
      simp only [] at h
      split at h
      · exact Option.noConfusion h
      · exact ih h
    | payment tp =>
      simp only [] at h
      split at h
      · exact Option.noConfusion h
      · exact ih h
    | restake tr =>
      simp only [] at h
      split at h
      · exact Option.noConfusion h
      · exact ih h
    | serviceAward ta =>
      simp only [] at h
      exact Option.noConfusion h
    | slashing tsl =>
      simp only [] at h
      cases helm : s.election_result_m with
      | none => rw [helm] at h; exact Option.noConfusion h
      | some er =>
      rw [helm] at h
      simp only [] at h
      split at h
      · exact Option.noConfusion h
      · have hh := ih h
        exact hh

/-- The skipped-view-change loop changes no field but `epoch_activity`. -/
theorem markSkipped_frame {L : LSN} {e o : Nat} :
    ∀ {vs : List Nat} {s s2 : ChainState},
    markSkipped L e o vs s = some s2 →
    s2 = { s with epoch_activity := s2.epoch_activity } := by
  intro vs
  induction vs with
  | nil =>
    intro s s2 h
    simp only [markSkipped] at h
    injection h with h
    rw [← h]
  | cons v rest ih =>
    intro s s2 h
    simp only [markSkipped] at h
    cases helm : s.election_result_m with
    | none => rw [helm] at h; exact Option.noConfusion h
    | some er =>
    rw [helm] at h
    simp only [] at h
    have hh := ih h
    exact hh

/-- `get` after `insert` at the same key sees the inserted value. -/
theorem mvm_get_insert_self {K V : Type} [LinearOrder K] [DecidableEq K]
    [DecidableEq V] (m : MVM K V) (l : LSN) (k : K) (v : V) :
    ((m.insert l k v).2).get k = some v := by
  unfold MVM.get MVM.insert
  exact lookupA_setA_self m.map k v

/-- Inversion of `push_micro_block` into the assertions, the log write and
the register step. -/
theorem push_micro_inversion {s : ChainState} {b : MicroBlock}
    {ins outs : List Output} {txs : List (Hash × Tx)} {s' : ChainState}
    (h : s.push_micro_block b = some (ins, outs, txs, s')) :
    b.header.epoch = s.epoch ∧ b.header.offset = s.offset ∧
    ({ s with db := setA s.db ⟨s.epoch, s.offset⟩ (Block.microB b)
      } : ChainState).register_micro_block ⟨s.epoch, s.offset⟩ b
      = some (ins, outs, txs, s') := by
  unfold ChainState.push_micro_block at h
  by_cases h1 : b.header.epoch ≠ s.epoch
  · rw [if_pos h1] at h; exact Option.noConfusion h
  rw [if_neg h1] at h
  push_neg at h1
  by_cases h2 : b.header.offset ≠ s.offset
  · rw [if_pos h2] at h; exact Option.noConfusion h
  rw [if_neg h2] at h
  push_neg at h2
  exact ⟨h1, h2, h⟩

/-- Shape of a successful `push_micro_block`: the metadata advance, the
final election entry, and the frame of untouched fields. -/
theorem push_micro_shape {s : ChainState} {b : MicroBlock}
    {ins outs : List Output} {txs : List (Hash × Tx)} {s' : ChainState}
    (h : s.push_micro_block b = some (ins, outs, txs, s')) :
    ∃ er2 : ElectionResult,
    s'.election_result_m = some { er2 with view_change := 0, random := b.header.random } ∧
    s'.offset = s.offset + 1 ∧
    s'.last_block_hash = b.digest ∧
    s'.last_block_timestamp = b.header.timestamp ∧
    s'.epoch = s.epoch ∧
    s'.difficulty = s.difficulty ∧
    s'.cfg = s.cfg ∧
    s'.awards = s.awards ∧
    s'.view_change_proof = s.view_change_proof ∧
    s'.last_macro_block_hash = s.last_macro_block_hash ∧
    s'.last_macro_block_timestamp = s.last_macro_block_timestamp ∧
    s'.last_macro_block_random = s.last_macro_block_random ∧
    s'.db = setA s.db ⟨s.epoch, s.offset⟩ (Block.microB b) := by
  obtain ⟨hep, hoff, hreg⟩ := push_micro_inversion h
  obtain ⟨_, _, _, _, _, _, s1, acc, s2, er, s4, er2, htl, hms, helm, hrio, her2,
    hins, houts, htxs, hs'⟩ := register_micro_inversion hreg
  have hf1 := txLoop_frame htl
  have hf2 := markSkipped_frame hms
  obtain ⟨om2, es2, burned, created, om, es, orig, _, _, _, _, _, _, hs4⟩ :=
    register_io_inversion hrio
  have hf3 : (if s2.epoch_activity.get (er.select_leader b.header.view_change) = none
      then { s2 with epoch_activity := (s2.epoch_activity.insert ⟨s.epoch, s.offset⟩
              (er.select_leader b.header.view_change) ValidatorAwardState.active).2 }
      else s2)
      = { s2 with epoch_activity :=
          (if s2.epoch_activity.get (er.select_leader b.header.view_change) = none
           then { s2 with epoch_activity := (s2.epoch_activity.insert ⟨s.epoch, s.offset⟩
                   (er.select_leader b.header.view_change) ValidatorAwardState.active).2 }
           else s2).epoch_activity } := by
    split
    · rfl
    · rfl
  have h4off : s4.offset = s.offset := by rw [hs4, hf3, hf2, hf1]
  have h4ep : s4.epoch = s.epoch := by rw [hs4, hf3, hf2, hf1]
  have h4dif : s4.difficulty = s.difficulty := by rw [hs4, hf3, hf2, hf1]
  have h4cfg : s4.cfg = s.cfg := by rw [hs4, hf3, hf2, hf1]
  have h4aw : s4.awards = s.awards := by rw [hs4, hf3, hf2, hf1]
  have h4vcp : s4.view_change_proof = s.view_change_proof := by rw [hs4, hf3, hf2, hf1]
  have h4mh : s4.last_macro_block_hash = s.last_macro_block_hash := by
    rw [hs4, hf3, hf2, hf1]
  have h4mt : s4.last_macro_block_timestamp = s.last_macro_block_timestamp := by
    rw [hs4, hf3, hf2, hf1]
  have h4mr : s4.last_macro_block_random = s.last_macro_block_random := by
    rw [hs4, hf3, hf2, hf1]
  have h4db : s4.db = setA s.db ⟨s.epoch, s.offset⟩ (Block.microB b) := by
    rw [hs4, hf3, hf2, hf1]
  refine ⟨er2, ?_, ?_, ?_, ?_, ?_, ?_, ?_, ?_, ?_, ?_, ?_, ?_, ?_⟩
  · rw [hs']
    show ((s4.election_result.insert ⟨s.epoch, s.offset⟩ ()
      { er2 with view_change := 0, random := b.header.random }).2).get () = _
    exact mvm_get_insert_self _ _ _ _
  · rw [hs']
    show s4.offset + 1 = s.offset + 1
    rw [h4off]
  · rw [hs']
  · rw [hs']
  · rw [hs']; exact h4ep
  · rw [hs']; exact h4dif
  · rw [hs']; exact h4cfg
  · rw [hs']; exact h4aw
  · rw [hs']; exact h4vcp
  · rw [hs']; exact h4mh
  · rw [hs']; exact h4mt
  · rw [hs']; exact h4mr
  · rw [hs']; exact h4db

/-! ### Claims C5 and C9. -/

/-- Claim C5: after every successful `push_micro_block(block)`, `offset`
has been incremented by exactly 1, `last_block_hash` is the hash of the
applied block, `last_block_timestamp` is the block's header timestamp, and
the current election result has `view_change = 0` and
`random = block.header.random`. -/
theorem push_micro_advances_metadata (s : ChainState) (b : MicroBlock)
    {ins outs : List Output} {txs : List (Hash × Tx)} {s' : ChainState}
    (h : s.push_micro_block b = some (ins, outs, txs, s')) :
    s'.offset = s.offset + 1 ∧
    s'.last_block_hash = b.digest ∧
    s'.last_block_timestamp = b.header.timestamp ∧
    s'.view_change_m = some 0 ∧
    (s'.election_result_m).map (fun e => e.random) = some b.header.random := by
  obtain ⟨er2, helm, hoff, hbh, hts, _⟩ := push_micro_shape h
  refine ⟨hoff, hbh, hts, ?_, ?_⟩
  · unfold ChainState.view_change_m
    rw [helm]
    rfl
  · rw [helm]
    rfl

/-- Witness for C5: the empty micro block applied on the genesis chain. -/
def wPushEmpty : List Output × List Output × List (Hash × Tx) × ChainState :=
  (wChain1.push_micro_block wMicroEmpty).getD ([], [], [], wChain1)

theorem push_micro_advances_metadata_witness :
    wPushEmpty.2.2.2.offset = wChain1.offset + 1 ∧
    wPushEmpty.2.2.2.last_block_hash = wMicroEmpty.digest ∧
    wPushEmpty.2.2.2.last_block_timestamp = wMicroEmpty.header.timestamp ∧
    wPushEmpty.2.2.2.view_change_m = some 0 ∧
    (wPushEmpty.2.2.2.election_result_m).map (fun e => e.random)
      = some wMicroEmpty.header.random :=
  push_micro_advances_metadata wChain1 wMicroEmpty
    (show wChain1.push_micro_block wMicroEmpty
      = some (wPushEmpty.1, wPushEmpty.2.1, wPushEmpty.2.2.1, wPushEmpty.2.2.2) by decide)

/-- Claim C9: `push_micro_block` modifies only the offset, last-block
scalars, the election result and the multi-versioned indexes (and the block
log): `epoch`, `difficulty`, `last_macro_block_hash`,
`last_macro_block_timestamp` and `last_macro_block_random` — and likewise
the configuration, awards engine and view-change proof — are unchanged by
every successful micro-block apply. -/
theorem push_micro_frame (s : ChainState) (b : MicroBlock)
    {ins outs : List Output} {txs : List (Hash × Tx)} {s' : ChainState}
    (h : s.push_micro_block b = some (ins, outs, txs, s')) :
    s'.epoch = s.epoch ∧
    s'.difficulty = s.difficulty ∧
    s'.last_macro_block_hash = s.last_macro_block_hash ∧
    s'.last_macro_block_timestamp = s.last_macro_block_timestamp ∧
    s'.last_macro_block_random = s.last_macro_block_random ∧
    s'.cfg = s.cfg ∧
    s'.awards = s.awards ∧
    s'.view_change_proof = s.view_change_proof := by
  obtain ⟨er2, _, _, _, _, hep, hdif, hcfg, haw, hvcp, hmbh, hmbt, hmbr, _⟩ :=
    push_micro_shape h
  exact ⟨hep, hdif, hmbh, hmbt, hmbr, hcfg, haw, hvcp⟩

theorem push_micro_frame_witness :
    wPushEmpty.2.2.2.epoch = wChain1.epoch ∧
    wPushEmpty.2.2.2.difficulty = wChain1.difficulty ∧
    wPushEmpty.2.2.2.last_macro_block_hash = wChain1.last_macro_block_hash ∧
    wPushEmpty.2.2.2.last_macro_block_timestamp = wChain1.last_macro_block_timestamp ∧
    wPushEmpty.2.2.2.last_macro_block_random = wChain1.last_macro_block_random ∧
    wPushEmpty.2.2.2.cfg = wChain1.cfg ∧
    wPushEmpty.2.2.2.awards = wChain1.awards ∧
    wPushEmpty.2.2.2.view_change_proof = wChain1.view_change_proof :=
  push_micro_frame wChain1 wMicroEmpty
    (show wChain1.push_micro_block wMicroEmpty
      = some (wPushEmpty.1, wPushEmpty.2.1, wPushEmpty.2.2.1, wPushEmpty.2.2.2) by decide)

/-! ### Claim C8: slashing removes the cheater from the validators. -/

theorem filter_self_idem {α : Type} (p : α → Bool) (l : List α) :
    (l.filter p).filter p = l.filter p := by
  induction l with
  | nil => rfl
  | cons a t ih =>
    by_cases hp : p a = true
    · simp [List.filter_cons, hp, ih]
    · simp only [List.filter_cons]
      rw [Bool.not_eq_true] at hp
      simp [hp, ih]

/-- The transaction loop's effect on the validator list: with every
slashing transaction naming cheater `c`, the validators end up filtered by
`≠ c` exactly when a slashing transaction was present. -/
theorem txLoop_validators {L : LSN} {e o : Nat} {c : PKey} :
    ∀ {txs : List Tx} {i : Nat} {s : ChainState} {acc : TxAcc}
      {s1 : ChainState} {acc' : TxAcc},
    txLoop L e o txs i s acc = some (s1, acc') →
    txs.all (slashOnly c) = true →
    ∀ V, s.validators_m = some V →
    s1.validators_m = some
      (if txs.any Tx.isSlash then V.filter (fun kv => kv.1 ≠ c) else V) := by
  intro txs
  induction txs with
  | nil =>
    intro i s acc s1 acc' h hall V hV
    simp only [txLoop] at h
    injection h with h
    rw [Prod.mk.injEq] at h
    rw [← h.1]
    simpa using hV
  | cons tx rest ih =>
    intro i s acc s1 acc' h hall V hV
    rw [List.all_cons, Bool.and_eq_true] at hall
    simp only [txLoop] at h
    cases hri : s.resolveInputs tx.txins with
    | none => rw [hri] at h; exact Option.noConfusion h
    | some ins =>
    rw [hri] at h
    simp only [] at h
    cases tx with
    | coinbase tc =>
      simp only [] at h
      split at h
      · exact Option.noConfusion h
      · have := ih h hall.2 V hV
        simpa [List.any_cons, Tx.isSlash] using this
    | payment tp =>
      simp only [] at h
      split at h
      · exact Option.noConfusion h
      · have := ih h hall.2 V hV
        simpa [List.any_cons, Tx.isSlash] using this
    | restake tr =>
      simp only [] at h
      split at h
      · exact Option.noConfusion h
      · have := ih h hall.2 V hV
        simpa [List.any_cons, Tx.isSlash] using this
    | serviceAward ta =>
      simp only [] at h
      exact Option.noConfusion h
    | slashing tsl =>
      have hc : tsl.cheater_key = c := by
        have := hall.1
        simpa [slashOnly] using this
      simp only [] at h
      cases helm : s.election_result_m with
      | none => rw [helm] at h; exact Option.noConfusion h
      | some er =>
      rw [helm] at h
      simp only [] at h
      split at h
      · exact Option.noConfusion h
      · have hVer : er.validators = V := by
          unfold ChainState.validators_m at hV
          rw [helm] at hV
          simpa using hV
        have hVE : ({ s with election_result := (s.election_result.insert L ()
            { er with validators :=
              er.validators.filter (fun kv => kv.1 ≠ tsl.cheater_key) }).2
            } : ChainState).validators_m
            = some (V.filter (fun kv => kv.1 ≠ c)) := by
          unfold ChainState.validators_m ChainState.election_result_m
          show ((s.election_result.insert L () _).2.get ()).map _ = _
          rw [mvm_get_insert_self]
          show some (er.validators.filter (fun kv => kv.1 ≠ tsl.cheater_key))
            = some (V.filter (fun kv => kv.1 ≠ c))
          rw [hVer, hc]
        have := ih h hall.2 _ hVE
        rw [this]
        have hcons : (Tx.slashing tsl :: rest).any Tx.isSlash = true := by
          simp [Tx.isSlash]
        rw [if_pos hcons]
        by_cases ha : rest.any Tx.isSlash = true
        · rw [if_pos ha, filter_self_idem]
        · rw [if_neg ha]

/-- Claim C8: if a micro-block whose slashing transactions all name
validator `c` as the cheater (and at least one does) is applied by
`push_micro_block`, then immediately after the apply `c` is absent from the
current election result's validators, while every other `(validator,
stake)` pair is retained in its original order — the new list is exactly
the old one filtered by `≠ c`. -/
theorem slashing_removes_cheater (s : ChainState) (b : MicroBlock) (c : PKey)
    (V : List (PKey × Int))
    {ins outs : List Output} {txs : List (Hash × Tx)} {s' : ChainState}
    (h : s.push_micro_block b = some (ins, outs, txs, s'))
    (hall : b.transactions.all (slashOnly c) = true)
    (hany : b.transactions.any Tx.isSlash = true)
    (hV : s.validators_m = some V) :
    s'.validators_m = some (V.filter (fun kv => kv.1 ≠ c)) := by
  obtain ⟨hep, hoff, hreg⟩ := push_micro_inversion h
  obtain ⟨_, _, _, _, _, _, s1, acc, s2, er, s4, er2, htl, hms, helm, hrio, her2,
    hins, houts, htxs, hs'⟩ := register_micro_inversion hreg
  have hVdb : ({ s with db := setA s.db ⟨s.epoch, s.offset⟩ (Block.microB b)
      } : ChainState).validators_m = some V := hV
  have h1V := txLoop_validators htl hall _ hVdb
  rw [if_pos hany] at h1V
  have hf2 := markSkipped_frame hms
  have h2er : s2.election_result = s1.election_result := by rw [hf2]
  obtain ⟨om2, es2, burned, created, om, es, orig, _, _, _, _, _, _, hs4⟩ :=
    register_io_inversion hrio
  have h3er : (if s2.epoch_activity.get (er.select_leader b.header.view_change) = none
      then { s2 with epoch_activity := (s2.epoch_activity.insert ⟨s.epoch, s.offset⟩
              (er.select_leader b.header.view_change) ValidatorAwardState.active).2 }
      else s2).election_result = s2.election_result := by
    split
    · rfl
    · rfl
  have h4er : s4.election_result = s1.election_result := by
    have h42 : s4.election_result = s2.election_result := by
      rw [hs4]
      exact h3er
    rw [h42, h2er]
  have h4V : s4.validators_m = some (V.filter (fun kv => kv.1 ≠ c)) := by
    unfold ChainState.validators_m ChainState.election_result_m at h1V ⊢
    rw [h4er]
    exact h1V
  have her2v : er2.validators = V.filter (fun kv => kv.1 ≠ c) := by
    unfold ChainState.validators_m at h4V
    rw [her2] at h4V
    simpa using h4V
  rw [hs']
  unfold ChainState.validators_m ChainState.election_result_m
  show ((s4.election_result.insert ⟨s.epoch, s.offset⟩ () _).2.get ()).map _ = _
  rw [mvm_get_insert_self]
  show some er2.validators = some (V.filter (fun kv => kv.1 ≠ c))
  rw [her2v]

/-- A micro block carrying one slashing transaction against validator 1. -/
def wMicroSlash : MicroBlock :=
  { header := { version := VERSION, epoch := 1, offset := 0,
                previous := wGenesis.digest, timestamp := 2,
                view_change := 0, random := ⟨6⟩, pkey := 1 },
    transactions := [Tx.slashing ⟨1, [], []⟩] }

/-- The chain after applying the slashing micro block. -/
def wPushSlash : List Output × List Output × List (Hash × Tx) × ChainState :=
  (wChain1.push_micro_block wMicroSlash).getD ([], [], [], wChain1)

theorem slashing_removes_cheater_witness :
    wPushSlash.2.2.2.validators_m
      = some (([(1, 5)] : List (PKey × Int)).filter (fun kv => kv.1 ≠ 1)) :=
  slashing_removes_cheater wChain1 wMicroSlash 1 [(1, 5)]
    (show wChain1.push_micro_block wMicroSlash
      = some (wPushSlash.1, wPushSlash.2.1, wPushSlash.2.2.1, wPushSlash.2.2.2) by decide)
    (by decide) (by decide) (by decide)

/-! ### LSN bounds through the apply loops. -/

theorem txLoop_lsn {L : LSN} {e o : Nat} :
    ∀ {txs : List Tx} {i : Nat} {s : ChainState} {acc : TxAcc}
      {s1 : ChainState} {acc' : TxAcc},
    txLoop L e o txs i s acc = some (s1, acc') →
    s.election_result.current_lsn ≤ L → s1.election_result.current_lsn ≤ L := by
  intro txs
  induction txs with
  | nil =>
    intro i s acc s1 acc' h hle
    simp only [txLoop] at h
    injection h with h
    rw [Prod.mk.injEq] at h
    rw [← h.1]
    exact hle
  | cons tx rest ih =>
    intro i s acc s1 acc' h hle
    simp only [txLoop] at h
    cases hri : s.resolveInputs tx.txins with
    | none => rw [hri] at h; exact Option.noConfusion h
    | some ins =>
    rw [hri] at h
    simp only [] at h
    cases tx with
    | coinbase tc =>
      simp only [] at h
      split at h
      · exact Option.noConfusion h
      · exact ih h hle
    | payment tp =>
      simp only [] at h
      split at h
      · exact Option.noConfusion h
      · exact ih h hle
    | restake tr =>
      simp only [] at h
      split at h
      · exact Option.noConfusion h
      · exact ih h hle
    | serviceAward ta =>
      simp only [] at h
      exact Option.noConfusion h
    | slashing tsl =>
      simp only [] at h
      cases helm : s.election_result_m with
      | none => rw [helm] at h; exact Option.noConfusion h
      | some er =>
      rw [helm] at h
      simp only [] at h
      split at h
      · exact Option.noConfusion h
      · refine ih h ?_
        show max s.election_result.lsn L ≤ L
        exact max_le hle le_rfl

theorem markSkipped_lsn {L : LSN} {e o : Nat} :
    ∀ {vs : List Nat} {s s2 : ChainState},
    markSkipped L e o vs s = some s2 →
    s.epoch_activity.current_lsn ≤ L → s2.epoch_activity.current_lsn ≤ L := by
  intro vs
  induction vs with
  | nil =>
    intro s s2 h hle
    simp only [markSkipped] at h
    injection h with h
    rw [← h]
    exact hle
  | cons v rest ih =>
    intro s s2 h hle
    simp only [markSkipped] at h
    cases helm : s.election_result_m with
    | none => rw [helm] at h; exact Option.noConfusion h
    | some er =>
    rw [helm] at h
    simp only [] at h
    refine ih h ?_
    show max s.epoch_activity.lsn L ≤ L
    exact max_le hle le_rfl

theorem processInputs_lsn {lsn : LSN} {e : Nat} :
    ∀ {lst : List (Hash × Output)} {om om' : MVM Hash OutputKey}
      {es es' : Escrow} {b0 b' : Pt},
    processInputs lsn e lst om es b0 = some (om', es', b') →
    om.current_lsn ≤ lsn → es.mvm.current_lsn ≤ lsn →
    om'.current_lsn ≤ lsn ∧ es'.mvm.current_lsn ≤ lsn := by
  intro lst
  induction lst with
  | nil =>
    intro om om' es es' b0 b' h h1 h2
    simp only [processInputs] at h
    injection h with h
    rw [Prod.mk.injEq, Prod.mk.injEq] at h
    rw [← h.1, ← h.2.1]
    exact ⟨h1, h2⟩
  | cons x rest ih =>
    intro om om' es es' b0 b' h h1 h2
    obtain ⟨xh, xo⟩ := x
    simp only [processInputs] at h
    cases hrm : (om.remove lsn xh).1 with
    | none => rw [hrm] at h; exact Option.noConfusion h
    | some prior =>
      rw [hrm] at h
      have h1' : (om.remove lsn xh).2.current_lsn ≤ lsn := by
        show max om.lsn lsn ≤ lsn
        exact max_le h1 le_rfl
      cases xo with
      | stake v rcp a sn =>
        simp only at h
        split at h
        · refine ih h h1' ?_
          show max es.mvm.lsn lsn ≤ lsn
          exact max_le h2 le_rfl
        · exact Option.noConfusion h
      | payment pc rcp sn => exact ih h h1' h2
      | publicPayment rcp a sn => exact ih h h1' h2

theorem processOutputs_lsn {lsn : LSN} {e se : Nat} :
    ∀ {lst : List (OutputKey × Output)} {om om' : MVM Hash OutputKey}
      {es es' : Escrow} {c0 c' : Pt},
    processOutputs lsn e se lst om es c0 = some (om', es', c') →
    om.current_lsn ≤ lsn → es.mvm.current_lsn ≤ lsn →
    om'.current_lsn ≤ lsn ∧ es'.mvm.current_lsn ≤ lsn := by
  intro lst
  induction lst with
  | nil =>
    intro om om' es es' c0 c' h h1 h2
    simp only [processOutputs] at h
    injection h with h
    rw [Prod.mk.injEq, Prod.mk.injEq] at h
    rw [← h.1, ← h.2.1]
    exact ⟨h1, h2⟩
  | cons x rest ih =>
    intro om om' es es' c0 c' h h1 h2
    obtain ⟨xk, xo⟩ := x
    simp only [processOutputs] at h
    cases hins : (om.insert lsn xo.digest xk).1 with
    | some prior => rw [hins] at h; exact Option.noConfusion h
    | none =>
      rw [hins] at h
      by_cases hlsn : (om.insert lsn xo.digest xk).2.current_lsn = lsn
      case neg => rw [if_neg hlsn] at h; exact Option.noConfusion h
      rw [if_pos hlsn] at h
      have h1' : (om.insert lsn xo.digest xk).2.current_lsn ≤ lsn := le_of_eq hlsn
      cases xo with
      | stake v rcp a sn =>
        simp only at h
        split at h
        · refine ih h h1' ?_
          show max es.mvm.lsn lsn ≤ lsn
          exact max_le h2 le_rfl
        · exact Option.noConfusion h
      | payment pc rcp sn => exact ih h h1' h2
      | publicPayment rcp a sn => exact ih h h1' h2

/-! ### The macro-block apply path. -/

/-- Full inversion of a successful `register_macro_block`: the assertions
held; for a non-genesis epoch the recomputed service-award winner fixed the
expected full reward and it matched the block's; and the result decomposes
into the shared register step followed by the metadata advance, the new
election result and the checkpoints. -/
theorem register_macro_inversion {s : ChainState} {L : LSN} {b : MacroBlock}
    {inputs ins outs : List Output} {s' : ChainState}
    (h : s.register_macro_block L b inputs = some (s', ins, outs)) :
    b.header.version = VERSION ∧ b.header.epoch = s.epoch ∧ s.offset = 0 ∧
    b.header.previous = s.last_macro_block_hash ∧
    s.last_macro_block_timestamp < b.header.timestamp ∧
    s.last_block_timestamp < b.header.timestamp ∧
    b.header.inputs_len = b.inputs.length ∧
    b.header.outputs_len = b.outputs.length ∧
    ins = inputs ∧ outs = b.outputs ∧
    ∃ (awards' : Awards) (s2 : ChainState),
      (b.header.epoch = 0 → awards' = s.awards) ∧
      (b.header.epoch ≠ 0 → ∃ va,
        s.epoch_activity_from_macro_block b.header.activity_map = some va ∧
        awards' = s.awards.finalize_epoch s.cfg.service_award_per_epoch va ∧
        b.header.block_reward
          = s.cfg.block_reward * ((s.cfg.micro_blocks_in_epoch : Int) + 1)
            + ((awards'.check_winners b.header.random.rand).map Prod.snd).getD 0) ∧
      ({ s with awards := awards' } : ChainState).register_inputs_and_outputs L
        b.digest b.inputs inputs
        ((List.range b.outputs.length).map
          (fun output_id => OutputKey.macroKey b.header.epoch output_id))
        b.outputs b.header.gamma b.header.block_reward = some s2 ∧
      s' = { s2 with
        epoch := s2.epoch + 1,
        offset := 0,
        last_block_timestamp := b.header.timestamp,
        last_block_hash := b.digest,
        last_macro_block_timestamp := b.header.timestamp,
        last_macro_block_random := b.header.random.rand,
        last_macro_block_hash := b.digest,
        election_result := (s2.election_result.insert L ()
          (select_validators_slots
            (s2.escrow.get_stakers_majority (s2.epoch + 1) s2.cfg.min_stake_amount)
            b.header.random s2.cfg.max_slot_count)).2,
        difficulty := b.header.difficulty,
        block_by_hash := s2.block_by_hash.checkpoint,
        output_by_hash := s2.output_by_hash.checkpoint,
        balance := s2.balance.checkpoint,
        escrow := s2.escrow.checkpoint } := by
  unfold ChainState.register_macro_block at h
  by_cases h1 : b.header.version ≠ VERSION
  · rw [if_pos h1] at h; exact Option.noConfusion h
  rw [if_neg h1] at h
  push_neg at h1
  by_cases h2 : b.header.epoch ≠ s.epoch
  · rw [if_pos h2] at h; exact Option.noConfusion h
  rw [if_neg h2] at h
  push_neg at h2
  by_cases h3 : s.offset ≠ 0
  · rw [if_pos h3] at h; exact Option.noConfusion h
  rw [if_neg h3] at h
  push_neg at h3
  by_cases h4 : b.header.previous ≠ s.last_macro_block_hash
  · rw [if_pos h4] at h; exact Option.noConfusion h
  rw [if_neg h4] at h
  push_neg at h4
  by_cases h5 : ¬ s.last_macro_block_timestamp < b.header.timestamp
  · rw [if_pos h5] at h; exact Option.noConfusion h
  rw [if_neg h5] at h
  push_neg at h5
  by_cases h6 : ¬ s.last_block_timestamp < b.header.timestamp
  · rw [if_pos h6] at h; exact Option.noConfusion h
  rw [if_neg h6] at h
  push_neg at h6
  by_cases h7 : b.header.inputs_len ≠ b.inputs.length
  · rw [if_pos h7] at h; exact Option.noConfusion h
  rw [if_neg h7] at h
  push_neg at h7
  by_cases h8 : b.header.outputs_len ≠ b.outputs.length
  · rw [if_pos h8] at h; exact Option.noConfusion h
  rw [if_neg h8] at h
  push_neg at h8
  simp only [] at h
  by_cases hep0 : b.header.epoch = 0
  · rw [if_pos hep0] at h
    simp only [] at h
    cases hreg : ({ s with awards := s.awards } : ChainState).register_inputs_and_outputs L
        b.digest b.inputs inputs
        ((List.range b.outputs.length).map
          (fun output_id => OutputKey.macroKey b.header.epoch output_id))
        b.outputs b.header.gamma b.header.block_reward with
    | none => rw [hreg] at h; exact Option.noConfusion h
    | some s2 =>
      rw [hreg] at h
      simp only [] at h
      injection h with h
      rw [Prod.mk.injEq, Prod.mk.injEq] at h
      refine ⟨h1, h2, h3, h4, h5, h6, h7, h8, h.2.1.symm, h.2.2.symm, s.awards, s2,
        fun _ => rfl, fun hc => absurd hep0 hc, hreg, h.1.symm⟩
  · rw [if_neg hep0] at h
    cases hva : s.epoch_activity_from_macro_block b.header.activity_map with
    | none => rw [hva] at h; exact Option.noConfusion h
    | some va =>
    rw [hva] at h
    simp only [] at h
    by_cases hrw : b.header.block_reward
        = s.cfg.block_reward * ((s.cfg.micro_blocks_in_epoch : Int) + 1)
          + ((((s.awards.finalize_epoch s.cfg.service_award_per_epoch va).check_winners
              b.header.random.rand).map Prod.snd).getD 0)
    case neg => rw [if_neg hrw] at h; exact Option.noConfusion h
    rw [if_pos hrw] at h
    simp only [] at h
    cases hreg : ({ s with
        awards := s.awards.finalize_epoch s.cfg.service_award_per_epoch va }
        : ChainState).register_inputs_and_outputs L
        b.digest b.inputs inputs
        ((List.range b.outputs.length).map
          (fun output_id => OutputKey.macroKey b.header.epoch output_id))
        b.outputs b.header.gamma b.header.block_reward with
    | none => rw [hreg] at h; exact Option.noConfusion h
    | some s2 =>
      rw [hreg] at h
      simp only [] at h
      injection h with h
      rw [Prod.mk.injEq, Prod.mk.injEq] at h
      exact ⟨h1, h2, h3, h4, h5, h6, h7, h8, h.2.1.symm, h.2.2.symm,
        s.awards.finalize_epoch s.cfg.service_award_per_epoch va, s2,
        fun hc => absurd hc hep0, fun _ => ⟨va, rfl, rfl, hrw⟩, hreg, h.1.symm⟩

/-- Inversion of `push_macro_block` into the assertions, input resolution,
the log write and the register step. -/
theorem push_macro_inversion {s : ChainState} {b : MacroBlock}
    {s' : ChainState} {ins outs : List Output}
    (h : s.push_macro_block b = some (s', ins, outs)) :
    b.header.epoch = s.epoch ∧ s.offset = 0 ∧
    ∃ inputs, s.resolveInputs b.inputs = some inputs ∧
      ({ s with db := setA s.db ⟨s.epoch, MACRO_BLOCK_OFFSET⟩ (Block.macroB b)
        } : ChainState).register_macro_block ⟨s.epoch, MACRO_BLOCK_OFFSET⟩ b inputs
        = some (s', ins, outs) := by
  unfold ChainState.push_macro_block at h
  by_cases h1 : b.header.epoch ≠ s.epoch
  · rw [if_pos h1] at h; exact Option.noConfusion h
  rw [if_neg h1] at h
  push_neg at h1
  by_cases h2 : s.offset ≠ 0
  · rw [if_pos h2] at h; exact Option.noConfusion h
  rw [if_neg h2] at h
  push_neg at h2
  cases hri : s.resolveInputs b.inputs with
  | none => rw [hri] at h; exact Option.noConfusion h
  | some inputs =>
    rw [hri] at h
    exact ⟨h1, h2, inputs, rfl, h⟩

/-! ### Claim C4: the macro-block reward assertion. -/

/-- Claim C4: for every macro block applied with epoch > 0,
`register_macro_block` recomputes the service-award winner from the block's
activity map and randomness and panics unless `block.header.block_reward`
equals `cfg.block_reward * (micro_blocks_in_epoch + 1)` plus the winner
amount (0 when no winner is found); when the assertion holds the apply
completes with `epoch` incremented by exactly 1 and `offset = 0`. -/
theorem register_macro_reward (s : ChainState) {L : LSN} (b : MacroBlock)
    {inputs ins outs : List Output} {s' : ChainState}
    (h : s.register_macro_block L b inputs = some (s', ins, outs))
    (hep : 0 < b.header.epoch) :
    (∃ va, s.epoch_activity_from_macro_block b.header.activity_map = some va ∧
      b.header.block_reward
        = s.cfg.block_reward * ((s.cfg.micro_blocks_in_epoch : Int) + 1)
          + ((((s.awards.finalize_epoch s.cfg.service_award_per_epoch va).check_winners
              b.header.random.rand).map Prod.snd).getD 0)) ∧
    s'.epoch = s.epoch + 1 ∧ s'.offset = 0 := by
  obtain ⟨_, h2, _, _, _, _, _, _, _, _, awards', s2, hgen, hpos, hreg, hs'⟩ :=
    register_macro_inversion h
  obtain ⟨va, hva, haw, hrw⟩ := hpos (Nat.pos_iff_ne_zero.mp hep)
  obtain ⟨om2, es2, burned, created, om, es, orig, _, _, _, _, _, _, hs2⟩ :=
    register_io_inversion hreg
  have h2ep : s2.epoch = s.epoch := by rw [hs2]
  refine ⟨⟨va, hva, by rw [← haw]; exact hrw⟩, ?_, ?_⟩
  · rw [hs']
    show s2.epoch + 1 = s.epoch + 1
    rw [h2ep]
  · rw [hs']

/-- A macro block closing epoch 1 over `wChain1` (no pool, so the winner
amount is 0 and the expected reward is 0). -/
def wMacro2 : MacroBlock :=
  { header := { version := VERSION, epoch := 1, view_change := 0,
                previous := wGenesis.digest, timestamp := 2, random := ⟨7⟩,
                difficulty := 11, pkey := 1, gamma := 0, block_reward := 0,
                activity_map := [true], inputs_len := 0, outputs_len := 0 },
    inputs := [],
    outputs := [] }

/-- The result of registering `wMacro2` on `wChain1`. -/
def wMacroRes : ChainState × List Output × List Output :=
  (wChain1.register_macro_block ⟨1, MACRO_BLOCK_OFFSET⟩ wMacro2 []).getD
    (wChain1, [], [])

theorem register_macro_reward_witness :
    (∃ va, wChain1.epoch_activity_from_macro_block wMacro2.header.activity_map
        = some va ∧
      wMacro2.header.block_reward
        = wChain1.cfg.block_reward * ((wChain1.cfg.micro_blocks_in_epoch : Int) + 1)
          + ((((wChain1.awards.finalize_epoch wChain1.cfg.service_award_per_epoch
                va).check_winners wMacro2.header.random.rand).map Prod.snd).getD 0)) ∧
    wMacroRes.1.epoch = wChain1.epoch + 1 ∧ wMacroRes.1.offset = 0 :=
  register_macro_reward wChain1 wMacro2
    (show wChain1.register_macro_block ⟨1, MACRO_BLOCK_OFFSET⟩ wMacro2 []
      = some (wMacroRes.1, wMacroRes.2.1, wMacroRes.2.2) by decide)
    (by decide)

/-! ### Claim C6: current LSNs of the multi-versioned maps after an apply. -/

/-- Counterexample to claim C6 as stated: applying the empty micro block
`wMicroEmpty` at LSN (1, 0) succeeds, yet the output index's current LSN is
not (1, 0) afterwards — an apply that touches no output leaves
`output_by_hash` (and likewise `escrow` and `epoch_activity`) at its old
current LSN, so not every map in the family reaches the block's LSN. -/
theorem mvm_current_lsn_after_apply_counterexample :
    wChain1.push_micro_block wMicroEmpty
      = some (wPushEmpty.1, wPushEmpty.2.1, wPushEmpty.2.2.1, wPushEmpty.2.2.2) ∧
    wPushEmpty.2.2.2.output_by_hash.current_lsn ≠ (⟨1, 0⟩ : LSN) := by
  decide

/-- Claim C6, amended: after a successful apply at LSN L — (epoch, offset)
for a micro block, (epoch, MACRO_BLOCK_OFFSET) for a macro block — the maps
written unconditionally (`block_by_hash`, `balance`, `election_result`)
have current LSN exactly L (the first two by the register step's own
assertions, the election map provided its current LSN did not already
exceed L), while `output_by_hash`, `escrow` and `epoch_activity` only
satisfy current LSN ≤ L: they are left untouched by blocks that do not
affect them, and the macro path never writes `epoch_activity` at all. -/
theorem mvm_current_lsn_after_apply
    (s t : ChainState) (b : MicroBlock) (B : MacroBlock)
    {ins outs : List Output} {txs : List (Hash × Tx)} {s' : ChainState}
    {insM outsM : List Output} {t' : ChainState}
    (hmic : s.push_micro_block b = some (ins, outs, txs, s'))
    (he1 : s.election_result.current_lsn ≤ (⟨s.epoch, s.offset⟩ : LSN))
    (ho1 : s.output_by_hash.current_lsn ≤ (⟨s.epoch, s.offset⟩ : LSN))
    (hw1 : s.escrow.current_lsn ≤ (⟨s.epoch, s.offset⟩ : LSN))
    (ha1 : s.epoch_activity.current_lsn ≤ (⟨s.epoch, s.offset⟩ : LSN))
    (hmac : t.push_macro_block B = some (t', insM, outsM))
    (ge1 : t.election_result.current_lsn ≤ (⟨t.epoch, MACRO_BLOCK_OFFSET⟩ : LSN))
    (go1 : t.output_by_hash.current_lsn ≤ (⟨t.epoch, MACRO_BLOCK_OFFSET⟩ : LSN))
    (gw1 : t.escrow.current_lsn ≤ (⟨t.epoch, MACRO_BLOCK_OFFSET⟩ : LSN)) :
    (s'.block_by_hash.current_lsn = (⟨s.epoch, s.offset⟩ : LSN) ∧
     s'.balance.current_lsn = (⟨s.epoch, s.offset⟩ : LSN) ∧
     s'.election_result.current_lsn = (⟨s.epoch, s.offset⟩ : LSN) ∧
     s'.output_by_hash.current_lsn ≤ (⟨s.epoch, s.offset⟩ : LSN) ∧
     s'.escrow.current_lsn ≤ (⟨s.epoch, s.offset⟩ : LSN) ∧
     s'.epoch_activity.current_lsn ≤ (⟨s.epoch, s.offset⟩ : LSN)) ∧
    (t'.block_by_hash.current_lsn = (⟨t.epoch, MACRO_BLOCK_OFFSET⟩ : LSN) ∧
     t'.balance.current_lsn = (⟨t.epoch, MACRO_BLOCK_OFFSET⟩ : LSN) ∧
     t'.election_result.current_lsn = (⟨t.epoch, MACRO_BLOCK_OFFSET⟩ : LSN) ∧
     t'.output_by_hash.current_lsn ≤ (⟨t.epoch, MACRO_BLOCK_OFFSET⟩ : LSN) ∧
     t'.escrow.current_lsn ≤ (⟨t.epoch, MACRO_BLOCK_OFFSET⟩ : LSN) ∧
     t'.epoch_activity = t.epoch_activity) := by
  constructor
  · obtain ⟨_, _, hreg0⟩ := push_micro_inversion hmic
    obtain ⟨_, _, _, _, _, _, s1, acc, s2, er, s4, er2,
      htl, hms, helm, hreg, her2, _, _, _, hs'⟩ := register_micro_inversion hreg0
    obtain ⟨om2, es2, burnedI, createdI, omI, esI, origI,
      _, hlsnB, hpiI, hpoI, _, hlsnBal, hs4eq⟩ := register_io_inversion hreg
    have hf1 := txLoop_frame htl
    have hf2 := markSkipped_frame hms
    have h1el : s1.election_result.current_lsn ≤ (⟨s.epoch, s.offset⟩ : LSN) :=
      txLoop_lsn htl he1
    have h2el : s2.election_result.current_lsn ≤ (⟨s.epoch, s.offset⟩ : LSN) := by
      rw [hf2]; exact h1el
    have h1ea : s1.epoch_activity.current_lsn ≤ (⟨s.epoch, s.offset⟩ : LSN) := by
      rw [hf1]; exact ha1
    have h2ea : s2.epoch_activity.current_lsn ≤ (⟨s.epoch, s.offset⟩ : LSN) :=
      markSkipped_lsn hms h1ea
    have h2o : s2.output_by_hash.current_lsn ≤ (⟨s.epoch, s.offset⟩ : LSN) := by
      rw [hf2, hf1]; exact ho1
    have h2w : s2.escrow.current_lsn ≤ (⟨s.epoch, s.offset⟩ : LSN) := by
      rw [hf2, hf1]; exact hw1
    have homes : omI.current_lsn ≤ (⟨s.epoch, s.offset⟩ : LSN) ∧
        esI.mvm.current_lsn ≤ (⟨s.epoch, s.offset⟩ : LSN) := by
      refine processInputs_lsn hpiI ?_ ?_
      · split
        · exact h2o
        · exact h2o
      · split
        · exact h2w
        · exact h2w
    have homes2 := processOutputs_lsn hpoI homes.1 homes.2
    have h4el : s4.election_result.current_lsn ≤ (⟨s.epoch, s.offset⟩ : LSN) := by
      rw [hs4eq]
      split
      · exact h2el
      · exact h2el
    have h4ea : s4.epoch_activity.current_lsn ≤ (⟨s.epoch, s.offset⟩ : LSN) := by
      rw [hs4eq]
      split
      · exact max_le h2ea le_rfl
      · exact h2ea
    refine ⟨?_, ?_, ?_, ?_, ?_, ?_⟩
    · rw [hs', hs4eq]; exact hlsnB
    · rw [hs', hs4eq]; exact hlsnBal
    · rw [hs']
      exact max_eq_right h4el
    · rw [hs', hs4eq]; exact homes2.1
    · rw [hs', hs4eq]; exact homes2.2
    · rw [hs']; exact h4ea
  · obtain ⟨_, _, inputsM, _, hregM⟩ := push_macro_inversion hmac
    obtain ⟨_, _, _, _, _, _, _, _, _, _, awardsM, s2M,
      _, _, hregIOM, ht'⟩ := register_macro_inversion hregM
    obtain ⟨om2M, es2M, burnedM, createdM, omM, esM, origM,
      _, hlsnBM, hpiM, hpoM, _, hlsnBalM, hs2M⟩ := register_io_inversion hregIOM
    have hel2M : s2M.election_result.current_lsn
        ≤ (⟨t.epoch, MACRO_BLOCK_OFFSET⟩ : LSN) := by
      rw [hs2M]; exact ge1
    have hprM : omM.current_lsn ≤ (⟨t.epoch, MACRO_BLOCK_OFFSET⟩ : LSN) ∧
        esM.mvm.current_lsn ≤ (⟨t.epoch, MACRO_BLOCK_OFFSET⟩ : LSN) := by
      refine processInputs_lsn hpiM ?_ ?_
      · exact go1
      · exact gw1
    have hprM2 := processOutputs_lsn hpoM hprM.1 hprM.2
    refine ⟨?_, ?_, ?_, ?_, ?_, ?_⟩
    · rw [ht', hs2M]; exact hlsnBM
    · rw [ht', hs2M]; exact hlsnBalM
    · rw [ht']
      exact max_eq_right hel2M
    · rw [ht', hs2M]; exact hprM2.1
    · rw [ht', hs2M]; exact hprM2.2
    · rw [ht', hs2M]

/-- The result of pushing the macro block `wMacro2` on `wChain1` (the state
and the resolved inputs and outputs). -/
def wMacroPush : ChainState × List Output × List Output :=
  (wChain1.push_macro_block wMacro2).getD (wChain1, [], [])

theorem mvm_current_lsn_after_apply_witness :
    (wPushEmpty.2.2.2.block_by_hash.current_lsn
        = (⟨wChain1.epoch, wChain1.offset⟩ : LSN) ∧
     wPushEmpty.2.2.2.balance.current_lsn
        = (⟨wChain1.epoch, wChain1.offset⟩ : LSN) ∧
     wPushEmpty.2.2.2.election_result.current_lsn
        = (⟨wChain1.epoch, wChain1.offset⟩ : LSN) ∧
     wPushEmpty.2.2.2.output_by_hash.current_lsn
        ≤ (⟨wChain1.epoch, wChain1.offset⟩ : LSN) ∧
     wPushEmpty.2.2.2.escrow.current_lsn
        ≤ (⟨wChain1.epoch, wChain1.offset⟩ : LSN) ∧
     wPushEmpty.2.2.2.epoch_activity.current_lsn
        ≤ (⟨wChain1.epoch, wChain1.offset⟩ : LSN)) ∧
    (wMacroPush.1.block_by_hash.current_lsn
        = (⟨wChain1.epoch, MACRO_BLOCK_OFFSET⟩ : LSN) ∧
     wMacroPush.1.balance.current_lsn
        = (⟨wChain1.epoch, MACRO_BLOCK_OFFSET⟩ : LSN) ∧
     wMacroPush.1.election_result.current_lsn
        = (⟨wChain1.epoch, MACRO_BLOCK_OFFSET⟩ : LSN) ∧
     wMacroPush.1.output_by_hash.current_lsn
        ≤ (⟨wChain1.epoch, MACRO_BLOCK_OFFSET⟩ : LSN) ∧
     wMacroPush.1.escrow.current_lsn
        ≤ (⟨wChain1.epoch, MACRO_BLOCK_OFFSET⟩ : LSN) ∧
     wMacroPush.1.epoch_activity = wChain1.epoch_activity) :=
  mvm_current_lsn_after_apply wChain1 wChain1 wMicroEmpty wMacro2
    (show wChain1.push_micro_block wMicroEmpty
      = some (wPushEmpty.1, wPushEmpty.2.1, wPushEmpty.2.2.1, wPushEmpty.2.2.2)
      by decide)
    (by decide) (by decide) (by decide) (by decide)
    (show wChain1.push_macro_block wMacro2
      = some (wMacroPush.1, wMacroPush.2.1, wMacroPush.2.2) by decide)
    (by decide) (by decide) (by decide)

/-! ### Claim C3: genesis enforcement on recovery. -/

/-- Claim C3: opening a ledger over a non-empty block log whose first
stored block recovers to a state whose last block hash differs from the
hash of the caller-supplied genesis returns `IncompatibleGenesis` carrying
both hashes (and the second hash is the first stored block's hash); no
error escapes as `none` (the modelled panic), and the remaining stored
blocks `rest` are never applied — the result does not depend on them. -/
theorem recover_incompatible_genesis (s : ChainState) (genesis : MacroBlock)
    {blk : Block} {rest : List Block} {s1 : ChainState}
    (hdb : s.db.map Prod.snd = blk :: rest)
    (h1 : s.recover_block blk = some s1)
    (hne : genesis.digest ≠ s1.last_block_hash) :
    s1.last_block_hash = blk.digest ∧
    s.recover genesis
      = some (Except.error
          (BlockchainError.IncompatibleGenesis genesis.digest s1.last_block_hash)) := by
  constructor
  · cases blk with
    | microB b =>
      unfold ChainState.recover_block at h1
      simp only [] at h1
      cases hr : s.register_micro_block ⟨b.header.epoch, b.header.offset⟩ b with
      | none => rw [hr] at h1; exact Option.noConfusion h1
      | some q =>
        obtain ⟨i1, i2, i3, s'⟩ := q
        rw [hr] at h1
        simp only [] at h1
        injection h1 with h1
        obtain ⟨_, _, _, _, _, _, sx1, acc, sx2, er, sx4, er2,
          _, _, _, _, _, _, _, _, hs'⟩ := register_micro_inversion hr
        rw [← h1, hs']
        rfl
    | macroB b =>
      unfold ChainState.recover_block at h1
      simp only [] at h1
      cases hri : s.resolveInputs b.inputs with
      | none => rw [hri] at h1; exact Option.noConfusion h1
      | some inputs =>
        rw [hri] at h1
        simp only [] at h1
        cases hr : s.register_macro_block ⟨b.header.epoch, MACRO_BLOCK_OFFSET⟩
            b inputs with
        | none => rw [hr] at h1; exact Option.noConfusion h1
        | some q =>
          obtain ⟨s', o1, o2⟩ := q
          rw [hr] at h1
          simp only [] at h1
          injection h1 with h1
          obtain ⟨_, _, _, _, _, _, _, _, _, _, aw, sx2, _, _, _, ht'⟩ :=
            register_macro_inversion hr
          rw [← h1, ht']
          rfl
  · unfold ChainState.recover
    simp only []
    rw [hdb]
    simp only []
    rw [h1]
    simp only []
    rw [if_pos hne]

/-- A genesis block that differs from `wGenesis` only in its timestamp, so
its hash differs from the hash of the stored first block. -/
def wGenesis2 : MacroBlock :=
  { wGenesis with header := { wGenesis.header with timestamp := 3 } }

/-- A fresh in-memory state over a one-block stored log holding
`wGenesis`, opened with the mismatching genesis `wGenesis2`. -/
def wDbState : ChainState :=
  ChainState.newInit wcfg [(⟨0, MACRO_BLOCK_OFFSET⟩, Block.macroB wGenesis)]
    wGenesis2

/-- The state recovered from the first stored block of `wDbState`. -/
def wRecState : ChainState :=
  (wDbState.recover_block (Block.macroB wGenesis)).getD wDbState

/-! ### Claim C2: rollback as the inverse of a micro apply. -/

/-- The log position a stored `OutputKey` points into. -/
def OutputKey.lsn : OutputKey → LSN
  | .macroKey epoch _ => ⟨epoch, MACRO_BLOCK_OFFSET⟩
  | .microKey epoch offset _ _ => ⟨epoch, offset⟩

/-- A successful lookup names a pair of the list. -/
theorem mem_of_lookupA_some {K V : Type} [LinearOrder K] [DecidableEq K]
    [DecidableEq V] {m : List (K × V)} {k : K} {v : V}
    (h : lookupA m k = some v) : (k, v) ∈ m := by
  induction m with
  | nil => simp [lookupA] at h
  | cons a t ih =>
    obtain ⟨a1, a2⟩ := a
    simp only [lookupA] at h
    by_cases hk : k = a1
    · rw [if_pos hk] at h
      injection h with h
      exact List.mem_cons.mpr (Or.inl (by rw [hk, h]))
    · rw [if_neg hk] at h
      exact List.mem_cons.mpr (Or.inr (ih h))

/-- `output_by_hash` agrees between two states whose output indexes are
equal and whose logs agree off one LSN that no indexed output points to. -/
theorem output_by_hash_m_agree (L : LSN) {u v : ChainState}
    (ho : u.output_by_hash.map = v.output_by_hash.map)
    (hdb : ∀ k : LSN, k ≠ L → lookupA u.db k = lookupA v.db k)
    (havoid : ∀ kv ∈ u.output_by_hash.map, OutputKey.lsn kv.2 ≠ L) :
    ∀ hh, u.output_by_hash_m hh = v.output_by_hash_m hh := by
  intro hh
  have hg : v.output_by_hash.get hh = u.output_by_hash.get hh := by
    show lookupA v.output_by_hash.map hh = lookupA u.output_by_hash.map hh
    rw [ho]
  unfold ChainState.output_by_hash_m
  rw [hg]
  cases hk : u.output_by_hash.get hh with
  | none => rfl
  | some key =>
    have hmem : (hh, key) ∈ u.output_by_hash.map := mem_of_lookupA_some hk
    have hne := havoid _ hmem
    cases key with
    | macroKey ep i =>
      simp only []
      have hbm : u.macro_block_m ep = v.macro_block_m ep := by
        unfold ChainState.macro_block_m ChainState.block_m
        rw [hdb ⟨ep, MACRO_BLOCK_OFFSET⟩ hne]
      rw [hbm]
    | microKey ep off ti oi =>
      simp only []
      have hbm : u.micro_block_m ep off = v.micro_block_m ep off := by
        unfold ChainState.micro_block_m ChainState.block_m
        rw [hdb ⟨ep, off⟩ hne]
      rw [hbm]

/-- The output query ignores the election result entirely. -/
theorem output_by_hash_m_el (u : ChainState) (elr : MVM Unit ElectionResult)
    (hh : Hash) :
    ({ u with election_result := elr } : ChainState).output_by_hash_m hh
      = u.output_by_hash_m hh := rfl

/-- Input resolution only reads the output index and the log. -/
theorem resolveInputs_agree {u v : ChainState}
    (hag : ∀ hh, u.output_by_hash_m hh = v.output_by_hash_m hh) :
    ∀ l, u.resolveInputs l = v.resolveInputs l := by
  intro l
  induction l with
  | nil => rfl
  | cons x t ih =>
    unfold ChainState.resolveInputs
    rw [hag x, ih]

/-- If the transaction loop resolved every transaction's inputs, the
post-rollback scan of `pop_micro_block` succeeds in any state that
resolves inputs the same way. -/
theorem popScan_of_txLoop {L : LSN} {e o : Nat} (v : ChainState) :
    ∀ {txs : List Tx} {i : Nat} {u : ChainState} {acc : TxAcc}
      {s1 : ChainState} {acc' : TxAcc},
    txLoop L e o txs i u acc = some (s1, acc') →
    (∀ l, u.resolveInputs l = v.resolveInputs l) →
    ∃ r : List Output × List Output × List Tx, popScan v txs = some r := by
  intro txs
  induction txs with
  | nil =>
    intro i u acc s1 acc' h hv
    exact ⟨([], [], []), rfl⟩
  | cons tx rest ih =>
    intro i u acc s1 acc' h hv
    simp only [txLoop] at h
    cases hri : u.resolveInputs tx.txins with
    | none => rw [hri] at h; exact Option.noConfusion h
    | some ins =>
    rw [hri] at h
    simp only [] at h
    have hvres : v.resolveInputs tx.txins = some ins := by rw [← hv]; exact hri
    cases tx with
    | coinbase tc =>
      simp only [] at h
      split at h
      · exact Option.noConfusion h
      · obtain ⟨⟨c, pr, rm⟩, hr⟩ := ih h hv
        exact ⟨_, by simp only [popScan]; rw [hvres, hr]⟩
    | payment tp =>
      simp only [] at h
      split at h
      · exact Option.noConfusion h
      · obtain ⟨⟨c, pr, rm⟩, hr⟩ := ih h hv
        exact ⟨_, by simp only [popScan]; rw [hvres, hr]⟩
    | restake tr =>
      simp only [] at h
      split at h
      · exact Option.noConfusion h
      · obtain ⟨⟨c, pr, rm⟩, hr⟩ := ih h hv
        exact ⟨_, by simp only [popScan]; rw [hvres, hr]⟩
    | serviceAward ta =>
      simp only [] at h
      exact Option.noConfusion h
    | slashing tsl =>
      simp only [] at h
      cases helm : u.election_result_m with
      | none => rw [helm] at h; exact Option.noConfusion h
      | some er =>
      rw [helm] at h
      simp only [] at h
      split at h
      · exact Option.noConfusion h
      · have hv2 : ∀ l, ({ u with election_result :=
            (u.election_result.insert L ()
              { er with
                validators := er.validators.filter (fun kv => kv.1 ≠ tsl.cheater_key) }).2 }
            : ChainState).resolveInputs l
            = v.resolveInputs l := by
          intro l
          rw [← hv l]
          exact resolveInputs_agree (fun hh => output_by_hash_m_el u _ hh) l
        obtain ⟨⟨c, pr, rm⟩, hr⟩ := ih h hv2
        exact ⟨_, by simp only [popScan]; rw [hvres, hr]⟩

/-- The LSN preceding the position `(epoch, offset)` of the next micro
block: the previous micro block of the epoch, or the previous epoch's
macro block. -/
def prevMicroLSN (s : ChainState) : LSN :=
  if s.offset = 0 then ⟨s.epoch - 1, MACRO_BLOCK_OFFSET⟩
  else ⟨s.epoch, s.offset - 1⟩

/-- The result of popping the freshly pushed empty micro block. -/
def wPop : List Output × List Output × List Tx × ChainState :=
  (wPushEmpty.2.2.2.pop_micro_block).getD ([], [], [], wPushEmpty.2.2.2)

/-- Counterexample to claim C2 as stated: pushing the empty micro block at
LSN (1, 0) over the genesis chain and immediately popping it restores the
maps' contents but NOT every `current_lsn` bitwise — `pop_micro_block`
ends with `reset_view_change`, which re-inserts the election result at
(epoch, offset), so the election map's current LSN is (1, 0) afterwards
while it was (0, 4294967295) before the push. -/
theorem push_pop_roundtrip_counterexample :
    wChain1.push_micro_block wMicroEmpty
      = some (wPushEmpty.1, wPushEmpty.2.1, wPushEmpty.2.2.1, wPushEmpty.2.2.2) ∧
    wPushEmpty.2.2.2.pop_micro_block
      = some (wPop.1, wPop.2.1, wPop.2.2.1, wPop.2.2.2) ∧
    wPop.2.2.2.election_result.current_lsn ≠ wChain1.election_result.current_lsn :=
  ⟨by decide, by decide, by decide⟩

/-- Claim C2, amended: under the well-formedness invariants of a committed
state (sorted maps and log, the block slot free, current LSNs at the
previous block's LSN, the stored previous block matching the last-block
metadata, a zero view change with no proof, and no indexed output pointing
at the new slot), popping immediately after a successful micro push
restores `db`, `block_by_hash`, `output_by_hash`, `balance`, `escrow`,
`epoch_activity` and every scalar bitwise; the election result's contents
are restored too, but its `current_lsn` becomes `(epoch, offset)` — the
LSN of the popped block, written by `reset_view_change` — rather than its
pre-push value. -/
theorem push_pop_roundtrip (s : ChainState) (b : MicroBlock) (E : ElectionResult)
    {ins outs : List Output} {txs : List (Hash × Tx)} {s' : ChainState}
    (hpush : s.push_micro_block b = some (ins, outs, txs, s'))
    (hep : 0 < s.epoch)
    (hsdb : KeysSorted s.db)
    (hfree : lookupA s.db (⟨s.epoch, s.offset⟩ : LSN) = none)
    (hsb : s.block_by_hash.Sorted) (hso : s.output_by_hash.Sorted)
    (hsbal : s.balance.Sorted) (hses : s.escrow.mvm.Sorted)
    (hsea : s.epoch_activity.Sorted) (hsel : s.election_result.Sorted)
    (hlsnB : s.block_by_hash.current_lsn = prevMicroLSN s)
    (hlsnE : s.election_result.current_lsn = prevMicroLSN s)
    (hlsnO : s.output_by_hash.current_lsn ≤ prevMicroLSN s)
    (hlsnBal : s.balance.current_lsn ≤ prevMicroLSN s)
    (hlsnEs : s.escrow.current_lsn ≤ prevMicroLSN s)
    (hlsnEa : s.epoch_activity.current_lsn ≤ prevMicroLSN s)
    (hprevM : s.offset = 0 → ∃ mb : MacroBlock,
      lookupA s.db (prevMicroLSN s) = some (Block.macroB mb) ∧
      mb.digest = s.last_block_hash ∧ mb.header.timestamp = s.last_block_timestamp)
    (hprevU : s.offset ≠ 0 → ∃ pb : MicroBlock,
      lookupA s.db (prevMicroLSN s) = some (Block.microB pb) ∧
      pb.digest = s.last_block_hash ∧ pb.header.timestamp = s.last_block_timestamp)
    (hE : s.election_result.get () = some E) (hE0 : E.view_change = 0)
    (hvcp : s.view_change_proof = none)
    (havoid : ∀ kv ∈ s.output_by_hash.map,
      OutputKey.lsn kv.2 ≠ (⟨s.epoch, s.offset⟩ : LSN)) :
    ∃ (pruned created : List Output) (removed : List Tx) (s'' : ChainState),
      s'.pop_micro_block = some (pruned, created, removed, s'') ∧
      s''.db = s.db ∧
      s''.block_by_hash = s.block_by_hash ∧
      s''.output_by_hash = s.output_by_hash ∧
      s''.balance = s.balance ∧
      s''.escrow = s.escrow ∧
      s''.epoch_activity = s.epoch_activity ∧
      s''.election_result.map = s.election_result.map ∧
      s''.election_result.current_lsn = (⟨s.epoch, s.offset⟩ : LSN) ∧
      s''.epoch = s.epoch ∧ s''.offset = s.offset ∧
      s''.last_block_hash = s.last_block_hash ∧
      s''.last_block_timestamp = s.last_block_timestamp ∧
      s''.view_change_proof = s.view_change_proof ∧
      s''.cfg = s.cfg ∧ s''.awards = s.awards ∧ s''.difficulty = s.difficulty ∧
      s''.last_macro_block_hash = s.last_macro_block_hash ∧
      s''.last_macro_block_timestamp = s.last_macro_block_timestamp ∧
      s''.last_macro_block_random = s.last_macro_block_random := by
  obtain ⟨Ev, Ef, Er0, Evc⟩ := E
  simp only [] at hE0
  subst hE0
  obtain ⟨er2s, helmS, hoff', hbh', hts', hep', hdif', hcfg', haw', hvcpS,
    hmh', hmt', hmr', hdb'⟩ := push_micro_shape hpush
  obtain ⟨_, _, hreg0⟩ := push_micro_inversion hpush
  obtain ⟨_, _, _, _, _, _, s1, acc, s2, er, s4, er2,
    htl, hms, helm, hreg, her2, _, _, _, hs'⟩ := register_micro_inversion hreg0
  obtain ⟨om2, es2, burned, created, omI, esI, orig,
    hbN, hbL, hpi, hpo, hbalg, hbalL, hs4⟩ := register_io_inversion hreg
  have h0ep : ¬ s.epoch = 0 := Nat.pos_iff_ne_zero.mp hep
  have hsucc0 : s.offset + 1 ≠ 0 := Nat.succ_ne_zero s.offset
  have hpL : prevMicroLSN s < (⟨s.epoch, s.offset⟩ : LSN) := by
    unfold prevMicroLSN
    by_cases h0 : s.offset = 0
    · rw [if_pos h0, LSN.lt_def]
      exact Or.inl (Nat.sub_lt hep Nat.one_pos)
    · rw [if_neg h0, LSN.lt_def]
      exact Or.inr ⟨rfl, Nat.sub_lt (Nat.pos_of_ne_zero h0) Nat.one_pos⟩
  have hnLp : ¬ (⟨s.epoch, s.offset⟩ : LSN) ≤ prevMicroLSN s := not_le_of_lt hpL
  have hTLs := txLoop_state (prevMicroLSN s) htl hsel hnLp
  have hMSs := markSkipped_state (prevMicroLSN s) hms
    (by rw [hTLs.1]; exact hsea) hnLp
  have h2elS : s2.election_result.Sorted := by rw [hMSs.1]; exact hTLs.2.1
  have h2eaS := hMSs.2.1
  have hIfF : (if s2.epoch_activity.get (er.select_leader b.header.view_change) = none
      then { s2 with epoch_activity := (s2.epoch_activity.insert ⟨s.epoch, s.offset⟩
              (er.select_leader b.header.view_change) ValidatorAwardState.active).2 }
      else s2)
      = { s2 with epoch_activity :=
          (if s2.epoch_activity.get (er.select_leader b.header.view_change) = none
           then { s2 with epoch_activity := (s2.epoch_activity.insert ⟨s.epoch, s.offset⟩
                   (er.select_leader b.header.view_change) ValidatorAwardState.active).2 }
           else s2).epoch_activity } := by
    split
    · rfl
    · rfl
  have h4elS : s4.election_result.Sorted := by
    rw [hs4]
    split
    · exact h2elS
    · exact h2elS
  have hPIs := processInputs_state hpi
    (by rw [hIfF, hMSs.1, hTLs.1]; exact hso)
    (by rw [hIfF, hMSs.1, hTLs.1]; exact hses) hnLp
  have hPOs := processOutputs_state hpo hPIs.1 hPIs.2.1 hnLp
  have hdbD : delA s'.db (⟨s.epoch, s.offset⟩ : LSN) = s.db := by
    rw [hdb']
    exact delA_setA_of_none hfree
  have hrbB : s'.block_by_hash.rollback_to_lsn (prevMicroLSN s)
      = s.block_by_hash := by
    rw [hs', hs4]
    simp only []
    rw [MVM.rollback_insert _ _ _ _ _
      (by rw [hIfF, hMSs.1, hTLs.1]; exact hsb) hnLp]
    rw [hIfF, hMSs.1, hTLs.1]
    simp only []
    rw [MVM.rollback_of_le _ _ (le_of_eq hlsnB)]
  have hrbO : s'.output_by_hash.rollback_to_lsn (prevMicroLSN s)
      = s.output_by_hash := by
    rw [hs', hs4]
    simp only []
    rw [hPOs.2.2.1, hPIs.2.2.1, hIfF, hMSs.1, hTLs.1]
    simp only []
    rw [MVM.rollback_of_le _ _ hlsnO]
  have hrbBal : s'.balance.rollback_to_lsn (prevMicroLSN s) = s.balance := by
    rw [hs', hs4]
    simp only []
    rw [MVM.rollback_insert _ _ _ _ _
      (by rw [hIfF, hMSs.1, hTLs.1]; exact hsbal) hnLp]
    rw [hIfF, hMSs.1, hTLs.1]
    simp only []
    rw [MVM.rollback_of_le _ _ hlsnBal]
  have hrbEs : s'.escrow.rollback_to_lsn (prevMicroLSN s) = s.escrow := by
    rw [hs', hs4]
    simp only []
    unfold Escrow.rollback_to_lsn
    rw [hPOs.2.2.2.1, hPIs.2.2.2.1, hIfF, hMSs.1, hTLs.1]
    simp only []
    rw [MVM.rollback_of_le _ _ hlsnEs]
  have hrbEa : s'.epoch_activity.rollback_to_lsn (prevMicroLSN s)
      = s.epoch_activity := by
    rw [hs', hs4]
    simp only []
    split
    · simp only []
      rw [MVM.rollback_insert _ _ _ _ _ h2eaS hnLp, hMSs.2.2.1, hTLs.1]
      simp only []
      rw [MVM.rollback_of_le _ _ hlsnEa]
    · rw [hMSs.2.2.1, hTLs.1]
      simp only []
      rw [MVM.rollback_of_le _ _ hlsnEa]
  have hrbEl : s'.election_result.rollback_to_lsn (prevMicroLSN s)
      = s.election_result := by
    rw [hs']
    simp only []
    rw [MVM.rollback_insert _ _ _ _ _ h4elS hnLp]
    rw [hs4]
    simp only []
    split
    · simp only []
      rw [hMSs.1]
      simp only []
      rw [hTLs.2.2.1]
      simp only []
      rw [MVM.rollback_of_le _ _ (le_of_eq hlsnE)]
    · rw [hMSs.1]
      simp only []
      rw [hTLs.2.2.1]
      simp only []
      rw [MVM.rollback_of_le _ _ (le_of_eq hlsnE)]
  have hmbm : s'.micro_block_m s.epoch s.offset = some b := by
    unfold ChainState.micro_block_m ChainState.block_m
    rw [hdb', lookupA_setA_self]
  have hrvc : s.reset_view_change = some ({ s with
      election_result := (s.election_result.insert ⟨s.epoch, s.offset⟩ ()
        { validators := Ev, facilitator := Ef, random := Er0, view_change := 0 }).2,
      view_change_proof := none } : ChainState) := by
    unfold ChainState.reset_view_change
    rw [show s.election_result_m
      = some ({ validators := Ev, facilitator := Ef, random := Er0,
                view_change := 0 } : ElectionResult) from hE]
  have hres : ∀ l, ({ s with
        db := setA s.db (⟨s.epoch, s.offset⟩ : LSN) (Block.microB b) }
      : ChainState).resolveInputs l
      = ({ s with
          election_result := (s.election_result.insert ⟨s.epoch, s.offset⟩ ()
            { validators := Ev, facilitator := Ef, random := Er0,
              view_change := 0 }).2,
          view_change_proof := none } : ChainState).resolveInputs l :=
    resolveInputs_agree (output_by_hash_m_agree ⟨s.epoch, s.offset⟩ rfl
      (fun k hk => lookupA_setA_ne s.db (Block.microB b) hk) havoid)
  obtain ⟨⟨c0, pr0, rm0⟩, hr0⟩ := popScan_of_txLoop ({ s with
      election_result := (s.election_result.insert ⟨s.epoch, s.offset⟩ ()
        { validators := Ev, facilitator := Ef, random := Er0,
          view_change := 0 }).2,
      view_change_proof := none } : ChainState) htl hres
  have hElLe : s.election_result.current_lsn ≤ (⟨s.epoch, s.offset⟩ : LSN) := by
    rw [hlsnE]
    exact le_of_lt hpL
  refine ⟨pr0, c0, rm0, ({ s with
      election_result := (s.election_result.insert ⟨s.epoch, s.offset⟩ ()
        { validators := Ev, facilitator := Ef, random := Er0,
          view_change := 0 }).2,
      view_change_proof := none } : ChainState), ?_, rfl, rfl, rfl, rfl, rfl, rfl,
    setA_lookup_self hsel hE, max_eq_right hElLe, rfl, rfl, rfl, rfl,
    hvcp.symm, rfl, rfl, rfl, rfl, rfl, rfl⟩
  unfold ChainState.pop_micro_block
  simp only []
  rw [hep']
  rw [if_neg h0ep]
  rw [hoff']
  rw [if_neg hsucc0]
  simp only [Nat.add_sub_cancel]
  rw [hmbm]
  simp only []
  by_cases hoff0 : s.offset = 0
  · rw [if_pos hoff0]
    obtain ⟨mb, hmb1, hmb2, hmb3⟩ := hprevM hoff0
    unfold prevMicroLSN at hmb1
    rw [if_pos hoff0] at hmb1
    have hne1 : (⟨s.epoch - 1, MACRO_BLOCK_OFFSET⟩ : LSN)
        ≠ (⟨s.epoch, s.offset⟩ : LSN) := by
      intro hc
      have h1 := congrArg LSN.ep hc
      simp only [] at h1
      omega
    have hmac : s'.macro_block_m (s.epoch - 1) = some mb := by
      unfold ChainState.macro_block_m ChainState.block_m
      rw [hdb', lookupA_setA_ne _ _ hne1, hmb1]
    rw [hmac]
    simp only []
    rw [hmb2, hmb3]
    have hplsn : (⟨s.epoch - 1, MACRO_BLOCK_OFFSET⟩ : LSN) = prevMicroLSN s := by
      unfold prevMicroLSN
      rw [if_pos hoff0]
    rw [hplsn]
    rw [hdbD, hrbB, hrbO, hrbBal, hrbEs, hrbEa, hrbEl]
    rw [if_neg (not_ne_iff.mpr hlsnB)]
    rw [if_neg (not_ne_iff.mpr hlsnE)]
    rw [if_neg (not_not_intro hlsnEa)]
    rw [if_neg (not_not_intro hlsnO)]
    rw [if_neg (not_not_intro hlsnBal)]
    rw [if_neg (not_not_intro hlsnEs)]
    rw [hcfg', hdif', hvcpS, hmh', hmt', hmr', haw']
    split
    · rename_i hnone
      have hcontra : s.reset_view_change = none := hnone
      rw [hrvc] at hcontra
      exact Option.noConfusion hcontra
    · rename_i s3 heq
      have h3 : s.reset_view_change = some s3 := heq
      rw [hrvc] at h3
      injection h3 with h3
      rw [← h3, hr0]
  · rw [if_neg hoff0]
    obtain ⟨pb, hmb1, hmb2, hmb3⟩ := hprevU hoff0
    unfold prevMicroLSN at hmb1
    rw [if_neg hoff0] at hmb1
    have hne2 : (⟨s.epoch, s.offset - 1⟩ : LSN)
        ≠ (⟨s.epoch, s.offset⟩ : LSN) := by
      intro hc
      have h1 := congrArg LSN.off hc
      simp only [] at h1
      omega
    have hmic : s'.micro_block_m s.epoch (s.offset - 1) = some pb := by
      unfold ChainState.micro_block_m ChainState.block_m
      rw [hdb', lookupA_setA_ne _ _ hne2, hmb1]
    rw [hmic]
    simp only []
    rw [hmb2, hmb3]
    have hplsn : (⟨s.epoch, s.offset - 1⟩ : LSN) = prevMicroLSN s := by
      unfold prevMicroLSN
      rw [if_neg hoff0]
    rw [hplsn]
    rw [hdbD, hrbB, hrbO, hrbBal, hrbEs, hrbEa, hrbEl]
    rw [if_neg (not_ne_iff.mpr hlsnB)]
    rw [if_neg (not_ne_iff.mpr hlsnE)]
    rw [if_neg (not_not_intro hlsnEa)]
    rw [if_neg (not_not_intro hlsnO)]
    rw [if_neg (not_not_intro hlsnBal)]
    rw [if_neg (not_not_intro hlsnEs)]
    rw [hcfg', hdif', hvcpS, hmh', hmt', hmr', haw']
    split
    · rename_i hnone
      have hcontra : s.reset_view_change = none := hnone
      rw [hrvc] at hcontra
      exact Option.noConfusion hcontra
    · rename_i s3 heq
      have h3 : s.reset_view_change = some s3 := heq
      rw [hrvc] at h3
      injection h3 with h3
      rw [← h3, hr0]

/-- The election result of the genesis chain, for the C2 witness. -/
def wE : ElectionResult :=
  (wChain1.election_result.get ()).getD
    { validators := [], facilitator := 0, random := ⟨0⟩, view_change := 0 }

theorem push_pop_roundtrip_witness :
    ∃ (pruned created : List Output) (removed : List Tx) (s'' : ChainState),
      wPushEmpty.2.2.2.pop_micro_block = some (pruned, created, removed, s'') ∧
      s''.db = wChain1.db ∧
      s''.block_by_hash = wChain1.block_by_hash ∧
      s''.output_by_hash = wChain1.output_by_hash ∧
      s''.balance = wChain1.balance ∧
      s''.escrow = wChain1.escrow ∧
      s''.epoch_activity = wChain1.epoch_activity ∧
      s''.election_result.map = wChain1.election_result.map ∧
      s''.election_result.current_lsn = (⟨wChain1.epoch, wChain1.offset⟩ : LSN) ∧
      s''.epoch = wChain1.epoch ∧ s''.offset = wChain1.offset ∧
      s''.last_block_hash = wChain1.last_block_hash ∧
      s''.last_block_timestamp = wChain1.last_block_timestamp ∧
      s''.view_change_proof = wChain1.view_change_proof ∧
      s''.cfg = wChain1.cfg ∧ s''.awards = wChain1.awards ∧
      s''.difficulty = wChain1.difficulty ∧
      s''.last_macro_block_hash = wChain1.last_macro_block_hash ∧
      s''.last_macro_block_timestamp = wChain1.last_macro_block_timestamp ∧
      s''.last_macro_block_random = wChain1.last_macro_block_random :=
  push_pop_roundtrip wChain1 wMicroEmpty wE
    (show wChain1.push_micro_block wMicroEmpty
      = some (wPushEmpty.1, wPushEmpty.2.1, wPushEmpty.2.2.1, wPushEmpty.2.2.2)
      by decide)
    (by decide) (by decide) (by decide) (by decide) (by decide) (by decide)
    (by decide) (by decide) (by decide) (by decide) (by decide) (by decide)
    (by decide) (by decide) (by decide)
    (fun _ => ⟨wGenesis, by decide, by decide, by decide⟩)
    (fun h => absurd (by decide : wChain1.offset = 0) h)
    (by decide) (by decide) (by decide) (by decide)

theorem recover_incompatible_genesis_witness :
    wRecState.last_block_hash = (Block.macroB wGenesis).digest ∧
    wDbState.recover wGenesis2
      = some (Except.error
          (BlockchainError.IncompatibleGenesis wGenesis2.digest
            wRecState.last_block_hash)) :=
  recover_incompatible_genesis wDbState wGenesis2
    (show wDbState.db.map Prod.snd = Block.macroB wGenesis :: [] by decide)
    (show wDbState.recover_block (Block.macroB wGenesis) = some wRecState by decide)
    (by decide)

end Stegos
